import Mathlib

/-!
Verification of `update_parts.py` (DWlib): a shallow embedding of the
schematic-scanning / inventory-merging tool, together with proofs of the
specification's claims about it.

Strings are modelled as `String` (a structure holding `data : List Char`);
most scanning functions work on `List Char`.  Python floats are modelled as
rationals (`ℚ`).  Python dicts are modelled as insertion-ordered association
lists (`Dict`).  The regular expressions used by the source are small and
anchored enough to admit direct deterministic translations; each translated
function documents the regex it embeds.

The file has two regions: all definitions first, then all theorems.
-/

namespace DWlib

/-! # Definitions -/

/-! ## Generic string and dict helpers -/

/-- Whitespace characters recognised by the embedding (the ASCII whitespace
set used by Python's `str.split`, `str.strip` and `\s`). -/
def isSpaceChar (c : Char) : Bool :=
  c = ' ' || c = '\t' || c = '\n' || c = '\r' || c = '\x0b' || c = '\x0c'

/-- Split a character list into maximal runs of non-whitespace characters
(Python's `str.split()` with no argument). -/
def wordsAux : List Char → List Char → List (List Char)
  | [], acc => if acc.isEmpty then [] else [acc.reverse]
  | c :: cs, acc =>
    if isSpaceChar c then
      if acc.isEmpty then wordsAux cs [] else acc.reverse :: wordsAux cs []
    else wordsAux cs (c :: acc)

def wordsOf (l : List Char) : List (List Char) := wordsAux l []

/-- Join words with single spaces (Python's `' '.join`). -/
def unwordsOf : List (List Char) → List Char
  | [] => []
  | [w] => w
  | w :: ws => w ++ ' ' :: unwordsOf ws

/-- Collapsing whitespace: `re.sub(r'\s+', ' ', s.strip())` is the same as
splitting into words and re-joining them with single spaces. -/
def collapseWS (l : List Char) : List Char := unwordsOf (wordsOf l)

/-- Insertion-ordered association list, the model of a Python `dict`
(updates keep the key's position, fresh keys are appended). -/
abbrev Dict (α : Type) := List (String × α)

def dlookup {α : Type} : Dict α → String → Option α
  | [], _ => none
  | (k, v) :: rest, key => if k = key then some v else dlookup rest key

def dset {α : Type} : Dict α → String → α → Dict α
  | [], key, val => [(key, val)]
  | (k, v) :: rest, key, val =>
    if k = key then (k, val) :: rest else (k, v) :: dset rest key val

/-! ## Reference-designator handling (source lines 202–211) -/

def isAsciiLetter (c : Char) : Bool :=
  ('A' ≤ c && c ≤ 'Z') || ('a' ≤ c && c ≤ 'z')

/-- Embedding of `strip_designator_suffix`: `re.match(r'([A-Za-z]+\d+)', refdes)`
matched at the start of the string takes the maximal run of ASCII letters
followed by the maximal run of digits; if either run is empty there is no
match and the input is returned unchanged. -/
def strip_designator_suffix (refdes : String) : String :=
  let letters := refdes.data.takeWhile isAsciiLetter
  let rest := refdes.data.dropWhile isAsciiLetter
  let digits := rest.takeWhile Char.isDigit
  if letters ≠ [] ∧ digits ≠ [] then ⟨letters ++ digits⟩ else refdes

/-! ## First-occurrence-wins accumulation

Both `parse_schematic_file` (source lines 295–300, keyed by `base_refdes`)
and `scan_project_folder` (source lines 386–394, keyed by MPN) use the same
idiom: `if key in dict: skip (at most print a warning) else: dict[key] = x`.
`firstWins key pay l` folds that loop over the ordered list of items. -/

def firstWinsStep {α β : Type} (key : α → String) (pay : α → β)
    (acc : Dict β) (x : α) : Dict β :=
  if (dlookup acc (key x)).isSome then acc else dset acc (key x) (pay x)

def firstWins {α β : Type} (key : α → String) (pay : α → β) (l : List α) : Dict β :=
  l.foldl (firstWinsStep key pay) []

/-! ## Multi-unit deduplication inside one parsed file (source lines 295–300)

`parse_schematic_file` keeps a dict keyed by `base_refdes`; a candidate whose
base id is already a key is skipped silently, otherwise its attribute map is
stored.  The fold runs over the ordered list of surviving candidate
instances, each given as (reference designator, attribute payload). -/

abbrev Props := List (String × String)

def dedupInstances (insts : List (String × Props)) : Dict Props :=
  firstWins (fun x => strip_designator_suffix x.1) Prod.snd insts

/-! ## The part record (source lines 367–384 and 409–426)

One inventory record.  `projects` models the Python set of project names as
a list with append-if-missing insertion (only membership, insertion and
sorted output are ever used on it); `lastUsed` is the `Last Used` date
string compared lexically. -/

structure PartRec where
  type : String
  value : String
  voltage : String
  tolerance : String
  extra : String
  footprint : String
  stock : String
  manufacturer : String
  mpn : String
  digikeyPN : String
  mouserPN : String
  description : String
  symbolId : String
  datasheet : String
  projects : List String
  lastUsed : String
deriving DecidableEq, Repr

/-- Intra-project accumulation of scanned parts (source lines 386–394): a
second observation of an MPN already seen in this project is dropped whole
(the consistency check only prints a warning and merges nothing). -/
def scanAccum (obs : List PartRec) : Dict PartRec :=
  firstWins (fun p => p.mpn) id obs

/-! ## The merge engine (source lines 429–502) -/

/-- One CONFLICT log entry: the payload of the f-string built at source
line 438 (MPN, master value, master footprint, new value, new footprint). -/
structure ConflictEntry where
  mpn : String
  masterValue : String
  masterFootprint : String
  newValue : String
  newFootprint : String
deriving DecidableEq, Repr

/-- One change-log entry (source lines 495, 497, 500). -/
inductive ChangeEntry where
  | newPart (type value mpn : String)
  | addedProject (mpn proj : String)
  | filledData (mpn : String)
deriving DecidableEq, Repr

/-- Fill-only update of one field (source lines 443–463):
`if not existing[f] and new_part[f]: existing[f] = new_part[f]`. -/
def fillField (old new : String) : String :=
  if old = "" ∧ new ≠ "" then new else old

/-- Always-take-newest update of Description / Symbol (source lines 466–486):
the incoming value replaces the existing one whenever it is non-empty and
differs (the `elif not existing and new` arms at lines 473–475 and 484–486
are unreachable: their guards are subsumed by the `if` above them). -/
def latestField (old new : String) : String :=
  if old ≠ new ∧ new ≠ "" then new else old

/-- The record after the field-update block of the consistent-merge path
(source lines 441–486).  No update ever touches `stock`, `type`, `value`,
`footprint`, `mpn`, `projects` or `lastUsed`. -/
def mergedRec (e p : PartRec) : PartRec :=
  { e with
    mouserPN := fillField e.mouserPN p.mouserPN
    digikeyPN := fillField e.digikeyPN p.digikeyPN
    voltage := fillField e.voltage p.voltage
    tolerance := fillField e.tolerance p.tolerance
    manufacturer := fillField e.manufacturer p.manufacturer
    datasheet := fillField e.datasheet p.datasheet
    extra := fillField e.extra p.extra
    description := latestField e.description p.description
    symbolId := latestField e.symbolId p.symbolId }

/-- The `updated` flag after the field-update block: true iff some field
branch fired (source lines 441–486). -/
def fillUpdated (e p : PartRec) : Bool :=
  (e.mouserPN == "" && p.mouserPN != "") ||
  (e.digikeyPN == "" && p.digikeyPN != "") ||
  (e.voltage == "" && p.voltage != "") ||
  (e.tolerance == "" && p.tolerance != "") ||
  (e.manufacturer == "" && p.manufacturer != "") ||
  (e.datasheet == "" && p.datasheet != "") ||
  (e.extra == "" && p.extra != "") ||
  (e.description != p.description && p.description != "") ||
  (e.symbolId != p.symbolId && p.symbolId != "")

structure MergeState where
  master : Dict PartRec
  changes : List ChangeEntry
  errors : List ConflictEntry
deriving Repr

/-- One iteration of the merge loop (source lines 433–500) for the incoming
item `(mpn, p)`.  `new_proj = list(new_part['Projects'])[0]` is modelled as
the head of the (in the program always singleton) project list. -/
def mergeStep (st : MergeState) (kv : String × PartRec) : MergeState :=
  match dlookup st.master kv.1 with
  | none =>
      { st with
        master := dset st.master kv.1 kv.2
        changes := st.changes ++ [.newPart kv.2.type kv.2.value kv.1] }
  | some e =>
      if e.value ≠ kv.2.value ∨ e.footprint ≠ kv.2.footprint then
        { st with
          errors := st.errors ++
            [⟨kv.1, e.value, e.footprint, kv.2.value, kv.2.footprint⟩] }
      else
        let e1 := mergedRec e kv.2
        let upd := fillUpdated e kv.2
        let newProj := kv.2.projects.headD ""
        if newProj ∈ e1.projects then
          { st with
            master := dset st.master kv.1 e1
            changes := st.changes ++ (if upd then [.filledData kv.1] else []) }
        else
          let e2 := { e1 with
            projects := e1.projects ++ [newProj]
            lastUsed := if e1.lastUsed < kv.2.lastUsed then kv.2.lastUsed else e1.lastUsed }
          { st with
            master := dset st.master kv.1 e2
            changes := st.changes ++ [.addedProject kv.1 newProj] }

/-- Embedding of `merge_data` (source lines 429–502): fold the merge loop
over the incoming items in dict order; the mutated master dict and the two
logs form the resulting state. -/
def merge_data (m0 : Dict PartRec) (nd : List (String × PartRec)) : MergeState :=
  nd.foldl mergeStep ⟨m0, [], []⟩

/-! ## Concrete sample records, used by witness instantiations -/

def sampleExisting : PartRec :=
  { type := "C", value := "100n", voltage := "", tolerance := "1%", extra := ""
    footprint := "0402", stock := "12", manufacturer := "", mpn := "MPNX"
    digikeyPN := "", mouserPN := "M100", description := "cap"
    symbolId := "Device:C", datasheet := "", projects := ["alpha"]
    lastUsed := "2024-01-01" }

def sampleIncoming : PartRec :=
  { type := "C", value := "100n", voltage := "16V", tolerance := "", extra := "X7R"
    footprint := "0402", stock := "", manufacturer := "ACME", mpn := "MPNX"
    digikeyPN := "D42", mouserPN := "M999", description := "cap2"
    symbolId := "Device:C", datasheet := "", projects := ["beta"]
    lastUsed := "2024-05-01" }

def sampleConflict : PartRec :=
  { type := "C", value := "220n", voltage := "", tolerance := "", extra := ""
    footprint := "0402", stock := "", manufacturer := "", mpn := "MPNX"
    digikeyPN := "", mouserPN := "", description := ""
    symbolId := "", datasheet := "", projects := ["beta"]
    lastUsed := "2024-05-01" }

/-! ## Value normalization (source lines 20–21 and 49–128) -/

/-- Component types whose values are parsed and normalized
(`VALUE_PARSE_TYPES`, source line 21). -/
def VALUE_PARSE_TYPES : List String := ["R", "C", "L", "D", "BT", "F", "FB", "Y", "Z"]

/-- Case folding used to model `re.IGNORECASE`: ASCII upper-case letters are
lowered; the capital omega forms (U+03A9, and the ohm sign U+2126) fold to
'ω', the Kelvin sign (U+212A) folds to 'k'. -/
def lowerU (c : Char) : Char :=
  if 65 ≤ c.toNat ∧ c.toNat ≤ 90 then Char.ofNat (c.toNat + 32)
  else if c.toNat = 0x3A9 ∨ c.toNat = 0x2126 then 'ω'
  else if c.toNat = 0x212A then 'k'
  else c

/-- The unit words stripped from the end of the numeric token, in source
order (source line 79). -/
def unitsToStrip : List (List Char) :=
  ["Ω", "Ohm", "ohms", "ohm", "F", "uF", "nF", "pF",
   "H", "uH", "nH", "mH", "Hz", "kHz", "MHz"].map String.data

/-- Case-insensitive suffix test, the semantics of matching
`re.escape(unit) + '$'` with `re.IGNORECASE`. -/
def endsWithCI (s u : List Char) : Bool :=
  (u.map lowerU).isSuffixOf (s.map lowerU)

/-- One round of `re.sub(re.escape(unit) + r'$', '', working_str, flags=re.IGNORECASE)`:
remove the unit when it is a (case-insensitive) suffix. -/
def stripOne (s u : List Char) : List Char :=
  if endsWithCI s u then s.take (s.length - u.length) else s

/-- The unit-stripping loop (source lines 82–84). -/
def stripUnits (s : List Char) : List Char := unitsToStrip.foldl stripOne s

/-- Characters of the multiplier class `[pnuµmkKMG]` (source lines 88, 99). -/
def isMultChar (c : Char) : Bool :=
  c = 'p' || c = 'n' || c = 'u' || c = 'µ' || c = 'm' ||
  c = 'k' || c = 'K' || c = 'M' || c = 'G'

/-- Output normalization of a matched multiplier letter: `µ` becomes `u`,
`K` becomes `k` (source lines 91–94 and 102–105). -/
def normMult (c : Char) : Char :=
  if c = 'µ' then 'u' else if c = 'K' then 'k' else c

/-- Full-string match of `\d+\.?\d*`: a non-empty digit run, optionally
followed by a dot and a further digit run. -/
def numTokShape (l : List Char) : Bool :=
  let d1 := l.takeWhile Char.isDigit
  let rest := l.dropWhile Char.isDigit
  (!d1.isEmpty) && (rest.isEmpty || (rest.head? = some '.' && rest.tail.all Char.isDigit))

/-- Format 1 (source lines 88–96), regex `^(\d+\.?\d*)([pnuµmkKMG])$`: the
final character is the multiplier, everything before it the number.  On a
match it returns the normalized output token. -/
def fmtMult? (w : List Char) : Option (List Char) :=
  match w.getLast? with
  | none => none
  | some c =>
    if isMultChar c && numTokShape w.dropLast then
      some (w.dropLast ++ [normMult c])
    else none

/-- Format 2 (source lines 99–109), regex `^(\d+)([pnuµmkKMG])(\d+)$`:
`4k7` becomes `4.7k`. -/
def fmtMid? (w : List Char) : Option (List Char) :=
  let d1 := w.takeWhile Char.isDigit
  match w.dropWhile Char.isDigit with
  | m :: d2 =>
    if (!d1.isEmpty) && isMultChar m && (!d2.isEmpty) && d2.all Char.isDigit then
      some (d1 ++ '.' :: (d2 ++ [normMult m]))
    else none
  | [] => none

/-- Format 3 (source lines 113–120), regex `^(\d+)R(\d*)$` with
`re.IGNORECASE`: `2R2` becomes `2.2R`, `5r` becomes `5R`. -/
def fmtRes? (w : List Char) : Option (List Char) :=
  let d1 := w.takeWhile Char.isDigit
  match w.dropWhile Char.isDigit with
  | r :: d2 =>
    if (!d1.isEmpty) && (r = 'R' || r = 'r') && d2.all Char.isDigit then
      (if !d2.isEmpty then some (d1 ++ '.' :: (d2 ++ ['R'])) else some (d1 ++ ['R']))
    else none
  | [] => none

/-- The four formats tried in source order on the unit-stripped numeric
token; format 4 (source lines 123–125, regex `^(\d+\.?\d*)$`) returns the
stripped token itself; no match yields `none` (the caller then returns the
collapsed original string, source line 128). -/
def tryFormats (w : List Char) : Option (List Char) :=
  match fmtMult? w with
  | some o => some o
  | none =>
    match fmtMid? w with
    | some o => some o
    | none =>
      match fmtRes? w with
      | some o => some o
      | none => if numTokShape w then some w else none

/-- Body of `normalize_value` after its guard (source lines 54–128).  The
source first collapses whitespace (`re.sub(r'\s+', ' ', value_str.strip())`),
splits on whitespace, processes the first token (unit stripping, then the
four formats) and re-joins with the suffix words; on no format match it
returns the collapsed string.  Since collapsing does not change the word
list, the embedding works directly with `wordsOf`/`unwordsOf`. -/
def normalizeCore (l : List Char) : List Char :=
  match wordsOf l with
  | [] => []
  | numTok :: rest =>
    match tryFormats (stripUnits numTok) with
    | some out => if rest.isEmpty then out else out ++ ' ' :: unwordsOf rest
    | none => unwordsOf (numTok :: rest)

/-- Embedding of `normalize_value` (source lines 49–128): the guard at line
51 returns the input unchanged for empty values and non-value-bearing
component types, otherwise the body runs. -/
def normalize_value (v : String) (componentType : String) : String :=
  if v = "" ∨ componentType ∉ VALUE_PARSE_TYPES then v
  else ⟨normalizeCore v.data⟩

/-- Digit-or-dot character class (the characters a matched number consists
of). -/
def isDigitDot (c : Char) : Bool := c.isDigit || c = '.'

/-! ## Voltage extraction (source lines 30–47) -/

/-- Attempt to match the voltage core `\d+\.?\d*V` at the head of `l`;
returns the matched text and the remaining characters.  The regex's greedy
runs are forced here: after the maximal digit run the next character must
be `V`, or a dot after whose maximal digit run a `V` must follow — every
backtracking alternative would require `V` where a digit or dot stands, so
this deterministic reading is exactly the regex's behaviour. -/
def matchVoltCore (l : List Char) : Option (List Char × List Char) :=
  let d1 := l.takeWhile Char.isDigit
  if d1.isEmpty then none
  else
    match l.dropWhile Char.isDigit with
    | 'V' :: r => some (d1 ++ ['V'], r)
    | '.' :: r2 =>
      (match r2.dropWhile Char.isDigit with
       | 'V' :: r => some (d1 ++ '.' :: (r2.takeWhile Char.isDigit ++ ['V']), r)
       | _ => none)
    | _ => none

/-- Attempt to match `\s*(\d+\.?\d*V)\s*` at the head of `l`: leading
whitespace, the voltage core (the regex's capture group), trailing
whitespace.  Returns the group and the rest after the whole match. -/
def matchVoltAt (l : List Char) : Option (List Char × List Char) :=
  match matchVoltCore (l.dropWhile isSpaceChar) with
  | some (core, r) => some (core, r.dropWhile isSpaceChar)
  | none => none

/-- First match of the voltage pattern (`re.search` at source line 37),
trying each start position left to right; returns the matched group. -/
def searchVolt : List Char → Option (List Char)
  | [] => none
  | c :: cs =>
    match matchVoltAt (c :: cs) with
    | some (core, _) => some core
    | none => searchVolt cs

/-- Replace every (non-overlapping, leftmost-first) match of the voltage
pattern by a single space — the semantics of
`re.sub(voltage_pattern, ' ', value_str)` at source line 42.  The fuel
argument only serves termination; `n = l.length` always suffices because a
match consumes at least one character (see `subVoltFuel_eq`). -/
def subVoltFuel : Nat → List Char → List Char
  | 0, l => l
  | _ + 1, [] => []
  | n + 1, c :: cs =>
    match matchVoltAt (c :: cs) with
    | some (_, rest) => ' ' :: subVoltFuel n rest
    | none => c :: subVoltFuel n cs

def subVolt (l : List Char) : List Char := subVoltFuel l.length l

/-- Embedding of `extract_voltage` (source lines 30–47): empty input is
returned as is; otherwise the first voltage match is returned as the
voltage, with the value cleaned by removing every match and collapsing
whitespace; with no match the input is returned unchanged with an empty
voltage. -/
def extract_voltage (v : String) : String × String :=
  if v = "" then (v, "")
  else
    match searchVolt v.data with
    | some core => (⟨collapseWS (subVolt v.data)⟩, ⟨core⟩)
    | none => (v, "")

/-! ## Numeric projection for sorting (source lines 130–200)

Python floats are modelled as rationals.  `parse_value_to_float` returns an
`Option ℚ`: `none` models the uncaught `IndexError` that
`value_str.split()[0]` raises on a non-empty all-whitespace string. -/

/-- Value of a digit list read in base 10. -/
def digitsToNat (ds : List Char) : Nat :=
  ds.foldl (fun acc c => acc * 10 + (c.toNat - 48)) 0

/-- Value Python's `float` gives a token of digits and at most one dot. -/
def pyFloatVal (num : List Char) : ℚ :=
  let ip := num.takeWhile (fun c => c ≠ '.')
  let fp := (num.dropWhile (fun c => c ≠ '.')).tail
  (digitsToNat ip : ℚ) + (digitsToNat fp : ℚ) / (10 : ℚ) ^ fp.length

/-- Python's `float` applied to a token drawn from the `[0-9.]` character
class: it succeeds exactly when the token has at most one dot and at least
one digit; `none` models `ValueError` (caught by the source's
`try`/`except`). -/
def pyFloat? (num : List Char) : Option ℚ :=
  if num.count '.' ≤ 1 ∧ num.any Char.isDigit then some (pyFloatVal num) else none

/-- Numeric value of a multiplier letter (source lines 139–149). -/
def multVal (c : Char) : ℚ :=
  if c = 'p' then 1 / 10 ^ 12
  else if c = 'n' then 1 / 10 ^ 9
  else if c = 'u' ∨ c = 'µ' then 1 / 10 ^ 6
  else if c = 'm' then 1 / 10 ^ 3
  else if c = 'k' ∨ c = 'K' then 10 ^ 3
  else if c = 'M' then 10 ^ 6
  else if c = 'G' then 10 ^ 9
  else 1

/-- First pattern of `parse_value_to_float` (source line 152), regex
`^([0-9\.]+)([pnuµmkKMG]?)$`: either the whole token is digits and dots
(no multiplier), or the final character is a multiplier and the non-empty
remainder is digits and dots. -/
def pvFmt1? (s : List Char) : Option (List Char × Option Char) :=
  if s ≠ [] ∧ s.all isDigitDot then some (s, none)
  else
    match s.getLast? with
    | some c =>
      if isMultChar c && (!s.dropLast.isEmpty) && s.dropLast.all isDigitDot then
        some (s.dropLast, some c)
      else none
    | none => none

/-- Third pattern (source line 176, `^(\d+)R(\d*)$` with `re.IGNORECASE`)
and the final `return 0.0`. -/
def pvTok3 (s : List Char) : ℚ :=
  let d1 := s.takeWhile Char.isDigit
  match s.dropWhile Char.isDigit with
  | r :: d2 =>
    if (!d1.isEmpty) && (r = 'R' || r = 'r') && d2.all Char.isDigit then
      (if !d2.isEmpty then pyFloatVal (d1 ++ '.' :: d2) else (digitsToNat d1 : ℚ))
    else 0
  | [] => 0

/-- Second pattern (source line 164, `^(\d+)([pnuµmkKMG])(\d+)$`);
`float(f"{main}.{dec}")` never raises for digit groups. -/
def pvTok2 (s : List Char) : ℚ :=
  let d1 := s.takeWhile Char.isDigit
  match s.dropWhile Char.isDigit with
  | m :: d2 =>
    if (!d1.isEmpty) && isMultChar m && (!d2.isEmpty) && d2.all Char.isDigit then
      (pyFloatVal (d1 ++ '.' :: d2)) * multVal m
    else pvTok3 s
  | [] => pvTok3 s

/-- Numeric value of the leading token (source lines 150–187): the first
pattern with a successful `float`, then the mid-multiplier pattern, then
the resistor pattern, then `0.0`. -/
def pvTok (s : List Char) : ℚ :=
  match pvFmt1? s with
  | some (num, multOpt) =>
    (match pyFloat? num with
     | some q => (match multOpt with | some m => q * multVal m | none => q)
     | none => pvTok2 s)
  | none => pvTok2 s

/-- Embedding of `parse_value_to_float` (source lines 130–187).  `none`
models the uncaught `IndexError` of `value_str.split()[0]` on a non-empty
string containing only whitespace. -/
def parse_value_to_float (v : String) : Option ℚ :=
  if v = "" then some 0
  else
    match (wordsOf v.data).head? with
    | none => none
    | some s => some (pvTok s)

/-- Leftmost maximal run of `[0-9.]` characters
(`re.search(r'([0-9\.]+)', volt_str)` at source line 194). -/
def firstNumRun : List Char → Option (List Char)
  | [] => none
  | c :: cs =>
    if isDigitDot c then some (c :: cs.takeWhile isDigitDot) else firstNumRun cs

/-- Embedding of `parse_voltage_to_float` (source lines 189–200): the
first numeric run parsed as a float, with any `ValueError` caught and
mapped to `0.0`; no run (or empty input) gives `0.0`. -/
def parse_voltage_to_float (v : String) : ℚ :=
  if v = "" then 0
  else
    match firstNumRun v.data with
    | none => 0
    | some run => (pyFloat? run).getD 0

/-! ## Output sorting (source lines 547–559)

Python compares key tuples lexicographically with short-circuiting
equality; `lexLE₂` is one layer of that comparison. -/

def lexLE₂ {α β : Type} [LinearOrder α] (le2 : β → β → Prop) (a b : α × β) : Prop :=
  a.1 < b.1 ∨ (a.1 = b.1 ∧ le2 a.2 b.2)

instance lexLE₂_decidable {α β : Type} [inst : LinearOrder α] (le2 : β → β → Prop)
    [DecidableRel le2] : DecidableRel (@lexLE₂ α β inst le2) := fun a b =>
  inferInstanceAs (Decidable (a.1 < b.1 ∨ (a.1 = b.1 ∧ le2 a.2 b.2)))

/-- The sort key of one row (the `key` lambda at source lines 551–558):
`Type`, numeric value (0.0 for non-value-bearing types), raw value text
(empty for value-bearing types), numeric voltage, footprint, MPN.  The
`getD 0` is never reached for rows whose value does not make
`parse_value_to_float` raise; the sorting theorem assumes exactly that. -/
def sortKey (x : PartRec) : String × ℚ × String × ℚ × String × String :=
  (x.type,
   (if x.type ∈ VALUE_PARSE_TYPES then (parse_value_to_float x.value).getD 0 else 0),
   (if x.type ∉ VALUE_PARSE_TYPES then x.value else ""),
   parse_voltage_to_float x.voltage,
   x.footprint,
   x.mpn)

/-- Tuple comparison of two rows' sort keys (Python's `sorted` order). -/
def rowLE (x y : PartRec) : Prop :=
  lexLE₂ (lexLE₂ (lexLE₂ (lexLE₂ (lexLE₂ (fun a b : String => a ≤ b)))))
    (sortKey x) (sortKey y)

instance rowLE_decidable : DecidableRel rowLE := fun x y =>
  inferInstanceAs (Decidable (lexLE₂ (lexLE₂ (lexLE₂ (lexLE₂ (lexLE₂
    (fun a b : String => a ≤ b))))) (sortKey x) (sortKey y)))

/-- The sort at source lines 549–559: Python's `sorted` is a stable sort by
the key tuple; insertion sort with the key comparison is the same stable
ascending order. -/
def sortParts (parts : List PartRec) : List PartRec :=
  List.insertionSort rowLE parts

/-- Sample rows for the claim C9 example: type `R`, distinct values,
identical elsewhere. -/
def sampleRow (val mpn : String) : PartRec :=
  { type := "R", value := val, voltage := "", tolerance := "", extra := ""
    footprint := "0402", stock := "", manufacturer := "", mpn := mpn
    digikeyPN := "", mouserPN := "", description := "", symbolId := ""
    datasheet := "", projects := ["p"], lastUsed := "2024-01-01" }

/-! ## Balanced-block extraction (source lines 213–230) -/

/-- The loop of `get_balanced_block` (source lines 217–229).  `rem` is the
unprocessed tail `text[i:]`, `i` the absolute index, `d` the depth, `q` the
in-string flag, `p` the previous character `text[i-1]` (`none` at index 0),
and `total` the value `len(text)` returned when the loop falls through.
Python's escape test `i == 0 or text[i-1] != '\\'` is `p ≠ some '\\'` here,
since `p = none` exactly when `i = 0`. -/
def gbbAux : List Char → Nat → Int → Bool → Option Char → Nat → Nat
  | [], _i, _d, _q, _p, total => total
  | c :: cs, i, d, q, p, total =>
    if c = '"' ∧ p ≠ some '\\' then gbbAux cs (i + 1) d (!q) (some c) total
    else if q then gbbAux cs (i + 1) d q (some c) total
    else if c = '(' then gbbAux cs (i + 1) (d + 1) q (some c) total
    else if c = ')' then
      (if d - 1 = 0 then i else gbbAux cs (i + 1) (d - 1) q (some c) total)
    else gbbAux cs (i + 1) d q (some c) total

/-- Embedding of `get_balanced_block` (source lines 213–230). -/
def get_balanced_block (text : List Char) (startIdx : Nat) : Nat :=
  gbbAux (text.drop startIdx) startIdx 0 false
    (if startIdx = 0 then none else (text.drop (startIdx - 1)).head?) text.length

/-- Spec-side one-character transition of the scanner state
(depth, in-string flag, previous character). -/
def dsStep (st : Int × Bool × Option Char) (c : Char) : Int × Bool × Option Char :=
  if c = '"' ∧ st.2.2 ≠ some '\\' then (st.1, !st.2.1, some c)
  else if st.2.1 then (st.1, st.2.1, some c)
  else if c = '(' then (st.1 + 1, st.2.1, some c)
  else if c = ')' then (st.1 - 1, st.2.1, some c)
  else (st.1, st.2.1, some c)

/-- Spec-side scanner state after processing `text[s:j)` starting from the
initial state at `s`. -/
def scanStateAt (text : List Char) (s j : Nat) : Int × Bool × Option Char :=
  ((text.drop s).take (j - s)).foldl dsStep
    (0, false, if s = 0 then none else (text.drop (s - 1)).head?)

/-- Spec-side characterisation of an index `j` at which the scan started at
`s` sees the closing parenthesis that brings the depth back to zero: a `)`
outside a string literal, reached with depth 1 about to drop to 0. -/
def isCloserAt (text : List Char) (s j : Nat) : Prop :=
  s ≤ j ∧ j < text.length ∧ text.get? j = some ')' ∧
  (scanStateAt text s j).2.1 = false ∧ (scanStateAt text s j).1 = 1

/-- Spec-side shape of a voltage substring: "digits, optional decimal,
literal V" (claim C4's wording for `\d+\.?\d*V`). -/
def voltCoreShape (w : List Char) : Prop :=
  ∃ d1 mid, w = d1 ++ mid ++ ['V'] ∧ d1 ≠ [] ∧ (∀ c ∈ d1, c.isDigit = true) ∧
    (mid = [] ∨ ∃ d2, mid = '.' :: d2 ∧ ∀ c ∈ d2, c.isDigit = true)

/-- Spec-side predicate: the string contains a voltage-shaped substring. -/
def containsVoltCore (l : List Char) : Prop :=
  ∃ w, voltCoreShape w ∧ w <:+: l

/-! # Theorems -/

/-! ## Word-splitting lemmas -/

theorem wordsAux_sound (l : List Char) : ∀ (acc : List Char),
    (∀ c ∈ acc, isSpaceChar c = false) →
    ∀ w ∈ wordsAux l acc, w ≠ [] ∧ ∀ c ∈ w, isSpaceChar c = false := by
  induction l with
  | nil =>
    intro acc hacc w hw
    rw [wordsAux] at hw
    split at hw
    · simp at hw
    · next hne =>
      simp only [List.mem_singleton] at hw
      subst hw
      refine ⟨?_, ?_⟩
      · simp only [ne_eq, List.reverse_eq_nil_iff]
        exact fun h => hne (by simp [h])
      · intro c hc
        exact hacc c (List.mem_reverse.mp hc)
  | cons c cs ih =>
    intro acc hacc w hw
    rw [wordsAux] at hw
    split at hw
    · split at hw
      · exact ih [] (by simp) w hw
      · next hne =>
        rcases List.mem_cons.mp hw with rfl | hw'
        · refine ⟨?_, fun x hx => hacc x (List.mem_reverse.mp hx)⟩
          simp only [ne_eq, List.reverse_eq_nil_iff]
          exact fun h => hne (by simp [h])
        · exact ih [] (by simp) w hw'
    · next hsp =>
      refine ih (c :: acc) ?_ w hw
      intro x hx
      rcases List.mem_cons.mp hx with rfl | hx'
      · simpa using hsp
      · exact hacc x hx'

theorem wordsOf_sound (l : List Char) :
    ∀ w ∈ wordsOf l, w ≠ [] ∧ ∀ c ∈ w, isSpaceChar c = false :=
  wordsAux_sound l [] (by simp)

theorem wordsAux_append_word (w : List Char) (hw : ∀ c ∈ w, isSpaceChar c = false) :
    ∀ (l acc : List Char), wordsAux (w ++ l) acc = wordsAux l (w.reverse ++ acc) := by
  induction w with
  | nil => simp
  | cons c cs ih =>
    intro l acc
    have hc : isSpaceChar c = false := hw c (by simp)
    rw [List.cons_append, wordsAux, if_neg (by simp [hc]),
      ih (fun x hx => hw x (by simp [hx])) l (c :: acc)]
    simp

theorem wordsOf_unwordsOf (ws : List (List Char))
    (h : ∀ w ∈ ws, w ≠ [] ∧ ∀ c ∈ w, isSpaceChar c = false) :
    wordsOf (unwordsOf ws) = ws := by
  induction ws with
  | nil => rfl
  | cons w ws ih =>
    obtain ⟨hw1, hw2⟩ := h w (by simp)
    cases ws with
    | nil =>
      show wordsOf (unwordsOf [w]) = [w]
      have h1 : unwordsOf [w] = w := rfl
      rw [h1, wordsOf, show w = w ++ [] from (List.append_nil w).symm,
        wordsAux_append_word w hw2 [] [], wordsAux]
      rw [if_neg (by simp [hw1])]
      simp
    | cons w' ws' =>
      have h1 : unwordsOf (w :: w' :: ws') = w ++ ' ' :: unwordsOf (w' :: ws') := rfl
      rw [h1, wordsOf, wordsAux_append_word w hw2 _ [], List.append_nil, wordsAux]
      rw [if_pos (by simp [isSpaceChar]), if_neg (by simp [hw1])]
      rw [List.reverse_reverse]
      have ih' := ih (fun x hx => h x (by simp [hx]))
      rw [wordsOf] at ih'
      rw [ih']

/-! ## Character-class lemmas -/

theorem char_ne_of_toNat_ne {a b : Char} (h : a.toNat ≠ b.toNat) : a ≠ b :=
  fun he => h (he ▸ rfl)

theorem isDigit_toNat {c : Char} (h : c.isDigit = true) :
    48 ≤ c.toNat ∧ c.toNat ≤ 57 := by
  simp [Char.isDigit] at h
  exact ⟨h.1, h.2⟩

theorem isDigitDot_toNat {c : Char} (h : isDigitDot c = true) :
    (48 ≤ c.toNat ∧ c.toNat ≤ 57) ∨ c.toNat = 46 := by
  rw [isDigitDot, Bool.or_eq_true] at h
  rcases h with h | h
  · exact Or.inl (isDigit_toNat h)
  · right
    rw [decide_eq_true_eq] at h
    subst h
    rfl

theorem lowerU_of_small {c : Char} (h : c.toNat < 65) : lowerU c = c := by
  rw [lowerU, if_neg (by omega), if_neg (by omega), if_neg (by omega)]

theorem lowerU_digitDot {c : Char} (h : isDigitDot c = true) : lowerU c = c := by
  rcases isDigitDot_toNat h with ⟨_, h2⟩ | h2 <;> exact lowerU_of_small (by omega)

theorem digitDot_not_space {c : Char} (h : isDigitDot c = true) :
    isSpaceChar c = false := by
  have hn := isDigitDot_toNat h
  have key : ∀ d : Char, c.toNat ≠ d.toNat → decide (c = d) = false := fun d hd =>
    decide_eq_false (char_ne_of_toNat_ne hd)
  rw [isSpaceChar,
    key ' ' (by rw [show (' ').toNat = 32 from rfl]; omega),
    key '\t' (by rw [show ('\t').toNat = 9 from rfl]; omega),
    key '\n' (by rw [show ('\n').toNat = 10 from rfl]; omega),
    key '\r' (by rw [show ('\r').toNat = 13 from rfl]; omega),
    key '\x0b' (by rw [show ('\x0b').toNat = 11 from rfl]; omega),
    key '\x0c' (by rw [show ('\x0c').toNat = 12 from rfl]; omega)]
  rfl

theorem map_lowerU_digitDot {ds : List Char} (h : ∀ d ∈ ds, isDigitDot d = true) :
    ds.map lowerU = ds := by
  induction ds with
  | nil => rfl
  | cons d ds ih =>
    rw [List.map_cons, lowerU_digitDot (h d (by simp)), ih (fun x hx => h x (by simp [hx]))]

/-! ## Suffix lemmas -/

theorem concat_suffix_concat {u s : List Char} {c d : Char} :
    (u ++ [c]) <:+ (s ++ [d]) ↔ c = d ∧ u <:+ s := by
  constructor
  · rintro ⟨t, ht⟩
    rw [← List.append_assoc] at ht
    obtain ⟨h1, h2⟩ := List.append_inj' ht rfl
    refine ⟨by simpa using h2, t, h1⟩
  · rintro ⟨rfl, t, rfl⟩
    exact ⟨t, by simp⟩

theorem singleton_suffix_concat {s : List Char} {c d : Char} :
    [c] <:+ (s ++ [d]) ↔ c = d := by
  rw [show ([c] : List Char) = [] ++ [c] from rfl, concat_suffix_concat]
  simp [List.nil_suffix]

/-! ## Unit-stripping fixed points -/

theorem foldl_stripOne_id (us : List (List Char)) (s : List Char)
    (h : ∀ u ∈ us, endsWithCI s u = false) : us.foldl stripOne s = s := by
  induction us with
  | nil => rfl
  | cons u us ih =>
    rw [List.foldl_cons, show stripOne s u = s from by simp [stripOne, h u (by simp)]]
    exact ih (fun x hx => h x (by simp [hx]))

theorem not_oh_suffix {ds : List Char} (hds : ∀ d ∈ ds, isDigitDot d = true) :
    ¬ ((['o', 'h'] : List Char) <:+ ds) := by
  rcases List.eq_nil_or_concat ds with rfl | ⟨ds', dl, rfl⟩
  · intro h
    have := h.length_le
    simp at this
  · rw [List.concat_eq_append,
      show (['o', 'h'] : List Char) = ['o'] ++ ['h'] from rfl, concat_suffix_concat]
    rintro ⟨hh, -⟩
    have hdl := hds dl (by simp)
    rcases isDigitDot_toNat hdl with ⟨_, h2⟩ | h2 <;>
      exact char_ne_of_toNat_ne (by rw [show ('h').toNat = 104 from rfl]; omega) hh

/-- Fixed-point of the unit-stripping loop: no unit is a case-insensitive
suffix of a string made of digits and dots followed by a final character
whose folded form is none of the characters the units end in ('ω', 's',
'f', 'h', 'z'); a final 'm'-folding character is fine because the `ohm`
units would additionally need an 'h' before it. -/
theorem stripUnits_fixed {ds : List Char} {c : Char}
    (hds : ∀ d ∈ ds, isDigitDot d = true)
    (hc1 : lowerU c ≠ 'ω') (hc2 : lowerU c ≠ 's') (hc3 : lowerU c ≠ 'f')
    (hc4 : lowerU c ≠ 'h') (hc5 : lowerU c ≠ 'z') :
    stripUnits (ds ++ [c]) = ds ++ [c] := by
  apply foldl_stripOne_id
  intro u hu
  have hmap : (ds ++ [c]).map lowerU = ds ++ [lowerU c] := by
    rw [List.map_append, map_lowerU_digitDot hds]
    rfl
  rw [endsWithCI, hmap, Bool.eq_false_iff, Ne, List.isSuffixOf_iff_suffix]
  simp only [unitsToStrip, List.map_cons, List.map_nil, List.mem_cons,
    List.not_mem_nil, or_false] at hu
  rcases hu with rfl | rfl | rfl | rfl | rfl | rfl | rfl | rfl | rfl | rfl | rfl | rfl | rfl | rfl | rfl
  · rw [show (("Ω" : String).data.map lowerU) = ['ω'] from by decide, singleton_suffix_concat]
    exact fun h => hc1 h.symm
  · rw [show (("Ohm" : String).data.map lowerU) = ['o', 'h'] ++ ['m'] from by decide,
      concat_suffix_concat]
    rintro ⟨-, hsuf⟩
    exact not_oh_suffix hds hsuf
  · rw [show (("ohms" : String).data.map lowerU) = ['o', 'h', 'm'] ++ ['s'] from by decide,
      concat_suffix_concat]
    rintro ⟨h, -⟩
    exact hc2 h.symm
  · rw [show (("ohm" : String).data.map lowerU) = ['o', 'h'] ++ ['m'] from by decide,
      concat_suffix_concat]
    rintro ⟨-, hsuf⟩
    exact not_oh_suffix hds hsuf
  · rw [show (("F" : String).data.map lowerU) = ['f'] from by decide, singleton_suffix_concat]
    exact fun h => hc3 h.symm
  · rw [show (("uF" : String).data.map lowerU) = ['u'] ++ ['f'] from by decide,
      concat_suffix_concat]
    rintro ⟨h, -⟩
    exact hc3 h.symm
  · rw [show (("nF" : String).data.map lowerU) = ['n'] ++ ['f'] from by decide,
      concat_suffix_concat]
    rintro ⟨h, -⟩
    exact hc3 h.symm
  · rw [show (("pF" : String).data.map lowerU) = ['p'] ++ ['f'] from by decide,
      concat_suffix_concat]
    rintro ⟨h, -⟩
    exact hc3 h.symm
  · rw [show (("H" : String).data.map lowerU) = ['h'] from by decide, singleton_suffix_concat]
    exact fun h => hc4 h.symm
  · rw [show (("uH" : String).data.map lowerU) = ['u'] ++ ['h'] from by decide,
      concat_suffix_concat]
    rintro ⟨h, -⟩
    exact hc4 h.symm
  · rw [show (("nH" : String).data.map lowerU) = ['n'] ++ ['h'] from by decide,
      concat_suffix_concat]
    rintro ⟨h, -⟩
    exact hc4 h.symm
  · rw [show (("mH" : String).data.map lowerU) = ['m'] ++ ['h'] from by decide,
      concat_suffix_concat]
    rintro ⟨h, -⟩
    exact hc4 h.symm
  · rw [show (("Hz" : String).data.map lowerU) = ['h'] ++ ['z'] from by decide,
      concat_suffix_concat]
    rintro ⟨h, -⟩
    exact hc5 h.symm
  · rw [show (("kHz" : String).data.map lowerU) = ['k', 'h'] ++ ['z'] from by decide,
      concat_suffix_concat]
    rintro ⟨h, -⟩
    exact hc5 h.symm
  · rw [show (("MHz" : String).data.map lowerU) = ['m', 'h'] ++ ['z'] from by decide,
      concat_suffix_concat]
    rintro ⟨h, -⟩
    exact hc5 h.symm

/-! ## Number-token lemmas -/

theorem takeWhile_append_of_all {p : Char → Bool} {a : List Char} (b : List Char)
    (h : ∀ x ∈ a, p x = true) : (a ++ b).takeWhile p = a ++ b.takeWhile p := by
  induction a with
  | nil => rfl
  | cons x a ih =>
    rw [List.cons_append, List.takeWhile_cons, h x (by simp),
      ih (fun y hy => h y (by simp [hy]))]
    rfl

theorem dropWhile_append_of_all {p : Char → Bool} {a : List Char} (b : List Char)
    (h : ∀ x ∈ a, p x = true) : (a ++ b).dropWhile p = b.dropWhile p := by
  induction a with
  | nil => rfl
  | cons x a ih =>
    rw [List.cons_append, List.dropWhile_cons, h x (by simp)]
    simp only [if_true]
    exact ih (fun y hy => h y (by simp [hy]))

theorem numTokShape_parts {w : List Char} (h : numTokShape w = true) :
    (w.takeWhile Char.isDigit ≠ [] ∧
     (w.dropWhile Char.isDigit = [] ∨
      ∃ t, w.dropWhile Char.isDigit = '.' :: t ∧ t.all Char.isDigit)) := by
  rw [numTokShape] at h
  simp only [Bool.and_eq_true, Bool.or_eq_true, Bool.not_eq_eq_eq_not, Bool.not_false] at h
  obtain ⟨h1, h2⟩ := h
  constructor
  · intro he
    rw [he] at h1
    simp at h1
  · rcases h2 with h2 | h2
    · left
      exact List.isEmpty_iff.mp h2
    · right
      obtain ⟨h21, h22⟩ := h2
      cases hd : w.dropWhile Char.isDigit with
      | nil => rw [hd] at h21; simp at h21
      | cons y t =>
        rw [hd] at h21 h22
        simp only [List.head?_cons, Option.some_inj] at h21
        refine ⟨t, ?_, by simpa using h22⟩
        rw [decide_eq_true_eq] at h21
        rw [h21]

theorem numTok_digitDot {w : List Char} (h : numTokShape w = true) :
    ∀ c ∈ w, isDigitDot c = true := by
  obtain ⟨-, h2⟩ := numTokShape_parts h
  intro c hc
  rw [← List.takeWhile_append_dropWhile (p := Char.isDigit) (l := w), List.mem_append] at hc
  rcases hc with hc | hc
  · rw [isDigitDot, List.mem_takeWhile_imp hc]
    rfl
  · rcases h2 with h2 | ⟨t, ht, hall⟩
    · rw [h2] at hc
      simp at hc
    · rw [ht] at hc
      rcases List.mem_cons.mp hc with rfl | hc'

      · rw [isDigitDot]
        simp
      · rw [isDigitDot, List.all_eq_true] at *
        rw [hall c hc']
        rfl

theorem numTok_ne_nil {w : List Char} (h : numTokShape w = true) : w ≠ [] := by
  obtain ⟨h1, -⟩ := numTokShape_parts h
  intro he
  subst he
  exact h1 rfl

theorem numTokShape_of_digits {d1 : List Char} (h1 : d1 ≠ [])
    (hall : ∀ x ∈ d1, x.isDigit = true) : numTokShape d1 = true := by
  rw [numTokShape]
  have ht : d1.takeWhile Char.isDigit = d1 := by
    have := takeWhile_append_of_all (p := Char.isDigit) [] hall
    simpa using this
  have hd : d1.dropWhile Char.isDigit = [] := by
    have := dropWhile_append_of_all (p := Char.isDigit) [] hall
    simpa using this
  simp [ht, hd, h1]

theorem numTokShape_of_dot {d1 d2 : List Char} (h1 : d1 ≠ [])
    (hall1 : ∀ x ∈ d1, x.isDigit = true) (hall2 : ∀ x ∈ d2, x.isDigit = true) :
    numTokShape (d1 ++ '.' :: d2) = true := by
  rw [numTokShape]
  have ht := takeWhile_append_of_all (p := Char.isDigit) ('.' :: d2) hall1
  have hd := dropWhile_append_of_all (p := Char.isDigit) ('.' :: d2) hall1
  rw [List.takeWhile_cons] at ht
  rw [List.dropWhile_cons] at hd
  have hdot : ('.' : Char).isDigit = false := by decide
  rw [hdot] at ht hd
  simp only [Bool.false_eq_true, if_false] at ht hd
  rw [ht, hd]
  simp [List.all_eq_true]
  exact ⟨h1, hall2⟩

/-! ## Format lemmas -/

theorem digit_digitDot {c : Char} (h : c.isDigit = true) : isDigitDot c = true := by
  rw [isDigitDot, h]
  rfl

theorem normMult_mem {c : Char} (h : isMultChar c = true) :
    normMult c ∈ (['p', 'n', 'u', 'm', 'k', 'M', 'G'] : List Char) := by
  rw [isMultChar] at h
  simp only [Bool.or_eq_true, decide_eq_true_eq] at h
  rcases h with ((((((((rfl | rfl) | rfl) | rfl) | rfl) | rfl) | rfl) | rfl) | rfl) <;> decide

theorem normMult_fix {m' : Char} (h : m' ∈ (['p', 'n', 'u', 'm', 'k', 'M', 'G'] : List Char)) :
    normMult m' = m' ∧ isMultChar m' = true := by
  fin_cases h <;> exact ⟨by decide, by decide⟩

theorem digitDot_not_mult {c : Char} (h : isDigitDot c = true) : isMultChar c = false := by
  have hn := isDigitDot_toNat h
  have key : ∀ d : Char, c.toNat ≠ d.toNat → decide (c = d) = false := fun d hd =>
    decide_eq_false (char_ne_of_toNat_ne hd)
  rw [isMultChar,
    key 'p' (by rw [show ('p').toNat = 112 from rfl]; omega),
    key 'n' (by rw [show ('n').toNat = 110 from rfl]; omega),
    key 'u' (by rw [show ('u').toNat = 117 from rfl]; omega),
    key 'µ' (by rw [show ('µ').toNat = 181 from rfl]; omega),
    key 'm' (by rw [show ('m').toNat = 109 from rfl]; omega),
    key 'k' (by rw [show ('k').toNat = 107 from rfl]; omega),
    key 'K' (by rw [show ('K').toNat = 75 from rfl]; omega),
    key 'M' (by rw [show ('M').toNat = 77 from rfl]; omega),
    key 'G' (by rw [show ('G').toNat = 71 from rfl]; omega)]
  rfl

theorem digitDot_ne_R {c : Char} (h : isDigitDot c = true) :
    (decide (c = 'R') || decide (c = 'r')) = false := by
  have hn := isDigitDot_toNat h
  have key : ∀ d : Char, c.toNat ≠ d.toNat → decide (c = d) = false := fun d hd =>
    decide_eq_false (char_ne_of_toNat_ne hd)
  rw [key 'R' (by rw [show ('R').toNat = 82 from rfl]; omega),
    key 'r' (by rw [show ('r').toNat = 114 from rfl]; omega)]
  rfl

theorem stripUnits_fixed_mult {num : List Char} {m' : Char}
    (hnum : ∀ c ∈ num, isDigitDot c = true)
    (hm : m' ∈ (['p', 'n', 'u', 'm', 'k', 'M', 'G'] : List Char)) :
    stripUnits (num ++ [m']) = num ++ [m'] := by
  fin_cases hm <;>
    exact stripUnits_fixed hnum (by decide) (by decide) (by decide) (by decide) (by decide)

theorem stripUnits_fixed_R {num : List Char} (hnum : ∀ c ∈ num, isDigitDot c = true) :
    stripUnits (num ++ ['R']) = num ++ ['R'] :=
  stripUnits_fixed hnum (by decide) (by decide) (by decide) (by decide) (by decide)

theorem stripUnits_fixed_digitDot {w : List Char} (hw : ∀ c ∈ w, isDigitDot c = true)
    (hne : w ≠ []) : stripUnits w = w := by
  rcases List.eq_nil_or_concat w with rfl | ⟨ds, c, rfl⟩
  · exact absurd rfl hne
  · rw [List.concat_eq_append] at hw ⊢
    have hc : isDigitDot c = true := hw c (by simp)
    have hl := lowerU_digitDot hc
    have hn := isDigitDot_toNat hc
    refine stripUnits_fixed (fun d hd => hw d (by simp [hd])) ?_ ?_ ?_ ?_ ?_ <;> rw [hl]
    · exact char_ne_of_toNat_ne (by rw [show ('ω').toNat = 969 from rfl]; omega)
    · exact char_ne_of_toNat_ne (by rw [show ('s').toNat = 115 from rfl]; omega)
    · exact char_ne_of_toNat_ne (by rw [show ('f').toNat = 102 from rfl]; omega)
    · exact char_ne_of_toNat_ne (by rw [show ('h').toNat = 104 from rfl]; omega)
    · exact char_ne_of_toNat_ne (by rw [show ('z').toNat = 122 from rfl]; omega)

theorem fmtMult?_concat {num : List Char} {m' : Char} (hnum : numTokShape num = true)
    (hm : isMultChar m' = true) :
    fmtMult? (num ++ [m']) = some (num ++ [normMult m']) := by
  rw [fmtMult?, List.getLast?_concat]
  simp [List.dropLast_concat, hm, hnum]

theorem tryFormats_mult_stable {num : List Char} {m' : Char}
    (hnum : numTokShape num = true)
    (hm : m' ∈ (['p', 'n', 'u', 'm', 'k', 'M', 'G'] : List Char)) :
    tryFormats (stripUnits (num ++ [m'])) = some (num ++ [m']) := by
  obtain ⟨hfix, hmc⟩ := normMult_fix hm
  rw [stripUnits_fixed_mult (numTok_digitDot hnum) hm, tryFormats,
    fmtMult?_concat hnum hmc, hfix]

theorem tryFormats_numTok_stable {w : List Char} (hw : numTokShape w = true) :
    tryFormats (stripUnits w) = some w := by
  rw [stripUnits_fixed_digitDot (numTok_digitDot hw) (numTok_ne_nil hw)]
  obtain ⟨h1, h2⟩ := numTokShape_parts hw
  have hm1 : fmtMult? w = none := by
    rcases List.eq_nil_or_concat w with rfl | ⟨ds, c, rfl⟩
    · exact absurd rfl (numTok_ne_nil hw)
    · rw [List.concat_eq_append] at hw ⊢
      have hc : isDigitDot c = true := numTok_digitDot hw c (by simp)
      rw [fmtMult?, List.getLast?_concat]
      simp [digitDot_not_mult hc]
  have hm2 : fmtMid? w = none := by
    rw [fmtMid?]
    rcases h2 with h2 | ⟨t, ht, -⟩
    · rw [h2]
    · rw [ht]
      simp [show isMultChar '.' = false from by decide]
  have hm3 : fmtRes? w = none := by
    rw [fmtRes?]
    rcases h2 with h2 | ⟨t, ht, -⟩
    · rw [h2]
    · rw [ht]
      simp [show (decide (('.' : Char) = 'R') || decide (('.' : Char) = 'r')) = false
        from by decide]
  rw [tryFormats, hm1, hm2, hm3, if_pos hw]

theorem tryFormats_res1_stable {d1 : List Char} (h1 : d1 ≠ [])
    (hall : ∀ x ∈ d1, x.isDigit = true) :
    tryFormats (stripUnits (d1 ++ ['R'])) = some (d1 ++ ['R']) := by
  have hdd : ∀ c ∈ d1, isDigitDot c = true := fun c hc => digit_digitDot (hall c hc)
  rw [stripUnits_fixed_R hdd]
  have htw : (d1 ++ ['R']).takeWhile Char.isDigit = d1 := by
    rw [takeWhile_append_of_all _ hall]
    simp [show ('R' : Char).isDigit = false from by decide]
  have hdw : (d1 ++ ['R']).dropWhile Char.isDigit = ['R'] := by
    rw [dropWhile_append_of_all _ hall]
    simp [show ('R' : Char).isDigit = false from by decide]
  have hm1 : fmtMult? (d1 ++ ['R']) = none := by
    rw [fmtMult?, List.getLast?_concat]
    simp [show isMultChar 'R' = false from by decide]
  have hm2 : fmtMid? (d1 ++ ['R']) = none := by
    rw [fmtMid?, hdw]
    simp [show isMultChar 'R' = false from by decide]
  have hm3 : fmtRes? (d1 ++ ['R']) = some (d1 ++ ['R']) := by
    rw [fmtRes?, hdw, htw]
    simp [h1]
  rw [tryFormats, hm1, hm2, hm3]

theorem tryFormats_res2_stable {d1 d2 : List Char} (_h1 : d1 ≠ []) (_h2 : d2 ≠ [])
    (hall1 : ∀ x ∈ d1, x.isDigit = true) (hall2 : ∀ x ∈ d2, x.isDigit = true) :
    tryFormats (stripUnits (d1 ++ '.' :: (d2 ++ ['R']))) = none := by
  have hdd : ∀ c ∈ d1 ++ '.' :: d2, isDigitDot c = true := by
    intro c hc
    rcases List.mem_append.mp hc with hc | hc
    · exact digit_digitDot (hall1 c hc)
    · rcases List.mem_cons.mp hc with rfl | hc'
      · decide
      · exact digit_digitDot (hall2 c hc')
  have hfix : stripUnits (d1 ++ '.' :: (d2 ++ ['R'])) = d1 ++ '.' :: (d2 ++ ['R']) := by
    have : d1 ++ '.' :: (d2 ++ ['R']) = (d1 ++ '.' :: d2) ++ ['R'] := by simp
    rw [this, stripUnits_fixed_R hdd, ← this]
  rw [hfix]
  have htw : (d1 ++ '.' :: (d2 ++ ['R'])).takeWhile Char.isDigit = d1 := by
    rw [takeWhile_append_of_all _ hall1, List.takeWhile_cons]
    simp [show ('.' : Char).isDigit = false from by decide]
  have hdw : (d1 ++ '.' :: (d2 ++ ['R'])).dropWhile Char.isDigit = '.' :: (d2 ++ ['R']) := by
    rw [dropWhile_append_of_all _ hall1, List.dropWhile_cons]
    simp [show ('.' : Char).isDigit = false from by decide]
  have hm1 : fmtMult? (d1 ++ '.' :: (d2 ++ ['R'])) = none := by
    have : d1 ++ '.' :: (d2 ++ ['R']) = (d1 ++ '.' :: d2) ++ ['R'] := by simp
    rw [this, fmtMult?, List.getLast?_concat]
    simp [show isMultChar 'R' = false from by decide]
  have hm2 : fmtMid? (d1 ++ '.' :: (d2 ++ ['R'])) = none := by
    rw [fmtMid?, hdw]
    simp [show isMultChar '.' = false from by decide]
  have hm3 : fmtRes? (d1 ++ '.' :: (d2 ++ ['R'])) = none := by
    rw [fmtRes?, hdw]
    simp [show (decide (('.' : Char) = 'R') || decide (('.' : Char) = 'r')) = false
      from by decide]
  have hnum : numTokShape (d1 ++ '.' :: (d2 ++ ['R'])) = false := by
    rw [numTokShape]
    rw [show ((d1 ++ '.' :: (d2 ++ ['R'])).dropWhile Char.isDigit) = '.' :: (d2 ++ ['R'])
      from hdw]
    simp [show ('R' : Char).isDigit = false from by decide]
  rw [tryFormats, hm1, hm2, hm3, hnum]
  rfl

/-- Classification of the outputs of `tryFormats`. -/
theorem tryFormats_shape {w out : List Char} (h : tryFormats w = some out) :
    (∃ num m', numTokShape num = true ∧
      m' ∈ (['p', 'n', 'u', 'm', 'k', 'M', 'G'] : List Char) ∧ out = num ++ [m']) ∨
    (∃ d1 d2, d1 ≠ [] ∧ d2 ≠ [] ∧ (∀ x ∈ d1, x.isDigit = true) ∧
      (∀ x ∈ d2, x.isDigit = true) ∧ out = d1 ++ '.' :: (d2 ++ ['R'])) ∨
    (∃ d1, d1 ≠ [] ∧ (∀ x ∈ d1, x.isDigit = true) ∧ out = d1 ++ ['R']) ∨
    numTokShape out = true := by
  rw [tryFormats] at h
  cases hf1 : fmtMult? w with
  | some o =>
    rw [hf1] at h
    simp only [Option.some_inj] at h
    subst h
    left
    rw [fmtMult?] at hf1
    split at hf1
    · exact absurd hf1 (by simp)
    · split at hf1
      · next hcond =>
        simp only [Option.some_inj] at hf1
        rw [Bool.and_eq_true] at hcond
        exact ⟨w.dropLast, normMult _, hcond.2, normMult_mem hcond.1, hf1.symm⟩
      · exact absurd hf1 (by simp)
  | none =>
    rw [hf1] at h
    cases hf2 : fmtMid? w with
    | some o =>
      rw [hf2] at h
      simp only [Option.some_inj] at h
      subst h
      left
      rw [fmtMid?] at hf2
      split at hf2
      · next m d2 heq =>
        split at hf2
        · next hcond =>
          simp only [Option.some_inj] at hf2
          simp only [Bool.and_eq_true, Bool.not_eq_eq_eq_not, Bool.not_false] at hcond
          obtain ⟨⟨⟨he1, hmc⟩, -⟩, hall⟩ := hcond
          refine ⟨w.takeWhile Char.isDigit ++ '.' :: d2, normMult m, ?_, normMult_mem hmc, ?_⟩
          · refine numTokShape_of_dot ?_ (fun x hx => List.mem_takeWhile_imp hx) ?_
            · intro hn
              rw [hn] at he1
              simp at he1
            · intro x hx
              exact (List.all_eq_true.mp hall) x hx
          · rw [← hf2]
            simp
        · exact absurd hf2 (by simp)
      · exact absurd hf2 (by simp)
    | none =>
      rw [hf2] at h
      cases hf3 : fmtRes? w with
      | some o =>
        rw [hf3] at h
        simp only [Option.some_inj] at h
        subst h
        rw [fmtRes?] at hf3
        split at hf3
        · next r d2 heq =>
          split at hf3
          · next hcond =>
            simp only [Bool.and_eq_true, Bool.not_eq_eq_eq_not, Bool.not_false] at hcond
            obtain ⟨⟨he1, -⟩, hall⟩ := hcond
            have he1' : w.takeWhile Char.isDigit ≠ [] := by
              intro hn
              rw [hn] at he1
              simp at he1
            have halltw : ∀ x ∈ w.takeWhile Char.isDigit, x.isDigit = true :=
              fun x hx => List.mem_takeWhile_imp hx
            split at hf3
            · next hd2 =>
              simp only [Option.some_inj] at hf3
              right; left
              refine ⟨w.takeWhile Char.isDigit, d2, he1', ?_,
                halltw, fun x hx => (List.all_eq_true.mp hall) x hx, hf3.symm⟩
              intro hn
              rw [hn] at hd2
              simp at hd2
            · simp only [Option.some_inj] at hf3
              right; right; left
              exact ⟨w.takeWhile Char.isDigit, he1', halltw, hf3.symm⟩
          · exact absurd hf3 (by simp)
        · exact absurd hf3 (by simp)
      | none =>
        rw [hf3] at h
        by_cases hn : numTokShape w = true
        · rw [if_pos hn] at h
          simp only [Option.some_inj] at h
          subst h
          right; right; right
          exact hn
        · rw [if_neg hn] at h
          exact absurd h (by simp)

/-- A second application of `tryFormats` (after unit stripping) either
reproduces a format output unchanged or rejects it; it never produces a
different token. -/
theorem tryFormats_stable {w out : List Char} (h : tryFormats w = some out) :
    tryFormats (stripUnits out) = some out ∨ tryFormats (stripUnits out) = none := by
  rcases tryFormats_shape h with ⟨num, m', hn, hm, rfl⟩ |
    ⟨d1, d2, h1, h2, ha1, ha2, rfl⟩ | ⟨d1, h1, ha1, rfl⟩ | hn
  · exact Or.inl (tryFormats_mult_stable hn hm)
  · exact Or.inr (tryFormats_res2_stable h1 h2 ha1 ha2)
  · exact Or.inl (tryFormats_res1_stable h1 ha1)
  · exact Or.inl (tryFormats_numTok_stable hn)

/-- Format outputs are non-empty and contain no whitespace. -/
theorem tryFormats_out_wordlike {w out : List Char} (h : tryFormats w = some out) :
    out ≠ [] ∧ ∀ c ∈ out, isSpaceChar c = false := by
  have hR : isSpaceChar 'R' = false := by decide
  have hdot : isSpaceChar '.' = false := by decide
  rcases tryFormats_shape h with ⟨num, m', hn, hm, rfl⟩ |
    ⟨d1, d2, h1, h2, ha1, ha2, rfl⟩ | ⟨d1, h1, ha1, rfl⟩ | hn
  · refine ⟨by simp, fun c hc => ?_⟩
    rcases List.mem_append.mp hc with hc | hc
    · exact digitDot_not_space (numTok_digitDot hn c hc)
    · rcases List.mem_singleton.mp hc with rfl
      fin_cases hm <;> decide
  · refine ⟨by simp, fun c hc => ?_⟩
    rcases List.mem_append.mp hc with hc | hc
    · exact digitDot_not_space (digit_digitDot (ha1 c hc))
    · rcases List.mem_cons.mp hc with rfl | hc'
      · exact hdot
      · rcases List.mem_append.mp hc' with hc'' | hc''
        · exact digitDot_not_space (digit_digitDot (ha2 c hc''))
        · rcases List.mem_singleton.mp hc'' with rfl
          exact hR
  · refine ⟨by simp, fun c hc => ?_⟩
    rcases List.mem_append.mp hc with hc | hc
    · exact digitDot_not_space (digit_digitDot (ha1 c hc))
    · rcases List.mem_singleton.mp hc with rfl
      exact hR
  · exact ⟨numTok_ne_nil hn, fun c hc => digitDot_not_space (numTok_digitDot hn c hc)⟩

theorem unwordsOf_cons_ne_nil {w : List Char} (hw : w ≠ []) (rest : List (List Char)) :
    unwordsOf (w :: rest) ≠ [] := by
  cases rest with
  | nil => exact hw
  | cons w' ws' =>
    show w ++ ' ' :: unwordsOf (w' :: ws') ≠ []
    simp

theorem normalizeCore_eq {l : List Char} {w : List Char} {rest : List (List Char)}
    (hwe : wordsOf l = w :: rest) :
    normalizeCore l =
      match tryFormats (stripUnits w) with
      | some o => if rest.isEmpty then o else o ++ ' ' :: unwordsOf rest
      | none => unwordsOf (w :: rest) := by
  rw [normalizeCore, hwe]

/-- Idempotence of the normalization body. -/
theorem normalizeCore_idem (l : List Char) :
    normalizeCore (normalizeCore l) = normalizeCore l := by
  have hws := wordsOf_sound l
  cases hwe : wordsOf l with
  | nil =>
    have h1 : normalizeCore l = [] := by rw [normalizeCore, hwe]
    rw [h1]
    rfl
  | cons numTok rest =>
    have hrest : ∀ w ∈ rest, w ≠ [] ∧ ∀ c ∈ w, isSpaceChar c = false :=
      fun w hw => hws w (by rw [hwe]; exact List.mem_cons_of_mem _ hw)
    cases hf : tryFormats (stripUnits numTok) with
    | some out =>
      obtain ⟨hone, hosp⟩ := tryFormats_out_wordlike hf
      have houtrest : ∀ w ∈ out :: rest, w ≠ [] ∧ ∀ c ∈ w, isSpaceChar c = false := by
        intro w hw
        rcases List.mem_cons.mp hw with rfl | hw'
        · exact ⟨hone, hosp⟩
        · exact hrest w hw'
      have h1 : normalizeCore l = unwordsOf (out :: rest) := by
        rw [normalizeCore_eq hwe, hf]
        cases rest with
        | nil => rfl
        | cons w' ws' => rfl
      rw [h1, normalizeCore_eq (wordsOf_unwordsOf _ houtrest)]
      rcases tryFormats_stable hf with hst | hst
      · cases rest with
        | nil =>
          rw [hst]
          rfl
        | cons w' ws' =>
          rw [hst]
          rfl
      · cases rest with
        | nil => rw [hst]
        | cons w' ws' => rw [hst]
    | none =>
      have hnumTok : numTok ≠ [] ∧ ∀ c ∈ numTok, isSpaceChar c = false :=
        hws numTok (by rw [hwe]; exact List.mem_cons_self _ _)
      have hall : ∀ w ∈ numTok :: rest, w ≠ [] ∧ ∀ c ∈ w, isSpaceChar c = false := by
        intro w hw
        rcases List.mem_cons.mp hw with rfl | hw'
        · exact hnumTok
        · exact hrest w hw'
      have h1 : normalizeCore l = unwordsOf (numTok :: rest) := by
        rw [normalizeCore_eq hwe, hf]
      rw [h1, normalizeCore_eq (wordsOf_unwordsOf _ hall), hf]

/-- Claim C3: `normalize` is idempotent — for every value string `v` and
every value-bearing type `t`,
`normalize_value (normalize_value v t) t = normalize_value v t`. -/
theorem normalize_value_idempotent (v t : String) (ht : t ∈ VALUE_PARSE_TYPES) :
    normalize_value (normalize_value v t) t = normalize_value v t := by
  by_cases hv : v = ""
  · subst hv
    have h0 : normalize_value "" t = "" := by rw [normalize_value, if_pos (Or.inl rfl)]
    rw [h0]
    exact h0
  · have hcond : ¬(v = "" ∨ t ∉ VALUE_PARSE_TYPES) := by
      rintro (h | h)
      · exact hv h
      · exact h ht
    have h1 : normalize_value v t = ⟨normalizeCore v.data⟩ := by
      rw [normalize_value, if_neg hcond]
    rw [h1]
    by_cases h2 : (⟨normalizeCore v.data⟩ : String) = ""
    · rw [normalize_value, if_pos (Or.inl h2)]
    · have hcond2 : ¬((⟨normalizeCore v.data⟩ : String) = "" ∨ t ∉ VALUE_PARSE_TYPES) := by
        rintro (h | h)
        · exact h2 h
        · exact h ht
      rw [normalize_value, if_neg hcond2]
      show (⟨normalizeCore (normalizeCore v.data)⟩ : String) = _
      rw [normalizeCore_idem]

/-- Witness for claim C3 at a concrete value and value-bearing type. -/
theorem normalize_value_idempotent_witness :
    normalize_value (normalize_value "4k7 5%" "R") "R" = normalize_value "4k7 5%" "R" :=
  normalize_value_idempotent "4k7 5%" "R" (by decide)

/-! ## Voltage-extraction lemmas -/

theorem length_dropWhile_le (p : Char → Bool) (l : List Char) :
    (l.dropWhile p).length ≤ l.length := by
  conv_rhs => rw [← List.takeWhile_append_dropWhile p l]
  rw [List.length_append]
  omega

theorem matchVoltCore_bound {s core r : List Char}
    (h : matchVoltCore s = some (core, r)) : r.length < s.length := by
  rw [matchVoltCore] at h
  split at h
  · exact absurd h (by simp)
  · have hlen : s.length = (s.takeWhile Char.isDigit).length +
        (s.dropWhile Char.isDigit).length := by
      conv_lhs => rw [← List.takeWhile_append_dropWhile Char.isDigit s]
      rw [List.length_append]
    split at h
    · next r' heq =>
      simp only [Option.some_inj, Prod.mk.injEq] at h
      rw [heq] at hlen
      simp only [List.length_cons] at hlen
      rw [← h.2]
      omega
    · next r2 heq =>
      split at h
      · next r' heq2 =>
        simp only [Option.some_inj, Prod.mk.injEq] at h
        have hlen2 : r2.length = (r2.takeWhile Char.isDigit).length +
            (r2.dropWhile Char.isDigit).length := by
          conv_lhs => rw [← List.takeWhile_append_dropWhile Char.isDigit r2]
          rw [List.length_append]
        rw [heq] at hlen
        rw [heq2] at hlen2
        simp only [List.length_cons] at hlen hlen2
        rw [← h.2]
        omega
      · exact absurd h (by simp)
    · exact absurd h (by simp)

theorem matchVoltAt_bound {l core rest : List Char}
    (h : matchVoltAt l = some (core, rest)) : rest.length < l.length := by
  rw [matchVoltAt] at h
  split at h
  · next core' r heq =>
    simp only [Option.some_inj, Prod.mk.injEq] at h
    have h1 := matchVoltCore_bound heq
    have h2 := length_dropWhile_le isSpaceChar l
    have h3 := length_dropWhile_le isSpaceChar r
    rw [← h.2]
    omega
  · exact absurd h (by simp)

theorem subVoltFuel_invariance : ∀ (n m : Nat) (l : List Char),
    l.length ≤ n → l.length ≤ m → subVoltFuel n l = subVoltFuel m l := by
  intro n
  induction n with
  | zero =>
    intro m l hn _
    have : l = [] := by
      cases l with
      | nil => rfl
      | cons c cs => simp at hn
    subst this
    cases m <;> rfl
  | succ n ih =>
    intro m l hn hm
    cases l with
    | nil => cases m <;> rfl
    | cons c cs =>
      cases m with
      | zero => simp at hm
      | succ m' =>
        show (match matchVoltAt (c :: cs) with
          | some (_, rest) => ' ' :: subVoltFuel n rest
          | none => c :: subVoltFuel n cs) =
          (match matchVoltAt (c :: cs) with
          | some (_, rest) => ' ' :: subVoltFuel m' rest
          | none => c :: subVoltFuel m' cs)
        cases hmt : matchVoltAt (c :: cs) with
        | some pr =>
          obtain ⟨core, rest⟩ := pr
          have hb := matchVoltAt_bound hmt
          simp only [List.length_cons] at hn hm hb
          show ' ' :: subVoltFuel n rest = ' ' :: subVoltFuel m' rest
          rw [ih m' rest (by omega) (by omega)]
        | none =>
          simp only [List.length_cons] at hn hm
          show c :: subVoltFuel n cs = c :: subVoltFuel m' cs
          rw [ih m' cs (by omega) (by omega)]

theorem subVolt_nil : subVolt [] = [] := rfl

theorem subVolt_cons (c : Char) (cs : List Char) :
    subVolt (c :: cs) =
      match matchVoltAt (c :: cs) with
      | some (_, rest) => ' ' :: subVolt rest
      | none => c :: subVolt cs := by
  show subVoltFuel (cs.length + 1) (c :: cs) = _
  show (match matchVoltAt (c :: cs) with
    | some (_, rest) => ' ' :: subVoltFuel cs.length rest
    | none => c :: subVoltFuel cs.length cs) = _
  cases hmt : matchVoltAt (c :: cs) with
  | some pr =>
    obtain ⟨core, rest⟩ := pr
    have hb := matchVoltAt_bound hmt
    simp only [List.length_cons] at hb
    show ' ' :: subVoltFuel cs.length rest = ' ' :: subVolt rest
    rw [show subVolt rest = subVoltFuel rest.length rest from rfl,
      subVoltFuel_invariance cs.length rest.length rest (by omega) (by omega)]
  | none => rfl

theorem matchVoltCore_sound {s core r : List Char}
    (h : matchVoltCore s = some (core, r)) :
    voltCoreShape core ∧ core <+: s := by
  rw [matchVoltCore] at h
  split at h
  · exact absurd h (by simp)
  · next hne =>
    have hd1 : s.takeWhile Char.isDigit ≠ [] := by
      intro he
      rw [he] at hne
      simp at hne
    have hall : ∀ c ∈ s.takeWhile Char.isDigit, c.isDigit = true :=
      fun c hc => List.mem_takeWhile_imp hc
    split at h
    · next r' heq =>
      simp only [Option.some_inj, Prod.mk.injEq] at h
      obtain ⟨h1, -⟩ := h
      subst h1
      constructor
      · exact ⟨s.takeWhile Char.isDigit, [], by simp, hd1, hall, Or.inl rfl⟩
      · refine ⟨r', ?_⟩
        conv_rhs => rw [← List.takeWhile_append_dropWhile Char.isDigit s]
        rw [heq]
        simp
    · next r2 heq =>
      split at h
      · next r' heq2 =>
        simp only [Option.some_inj, Prod.mk.injEq] at h
        obtain ⟨h1, -⟩ := h
        subst h1
        have hall2 : ∀ c ∈ r2.takeWhile Char.isDigit, c.isDigit = true :=
          fun c hc => List.mem_takeWhile_imp hc
        constructor
        · refine ⟨s.takeWhile Char.isDigit, '.' :: r2.takeWhile Char.isDigit,
            by simp, hd1, hall, Or.inr ⟨r2.takeWhile Char.isDigit, rfl, hall2⟩⟩
        · refine ⟨r', ?_⟩
          conv_rhs => rw [← List.takeWhile_append_dropWhile Char.isDigit s]
          rw [heq]
          conv_rhs => rw [show r2 = r2.takeWhile Char.isDigit ++ r2.dropWhile Char.isDigit
            from (List.takeWhile_append_dropWhile Char.isDigit r2).symm]
          rw [heq2]
          simp
      · exact absurd h (by simp)
    · exact absurd h (by simp)

theorem matchVoltCore_of_shape {w : List Char} (hw : voltCoreShape w) (b : List Char) :
    (matchVoltCore (w ++ b)).isSome := by
  obtain ⟨d1, mid, rfl, hne, hall, hmid⟩ := hw
  have hV : ('V' : Char).isDigit = false := by decide
  rcases hmid with rfl | ⟨d2, rfl, hall2⟩
  · have hshape : (d1 ++ [] ++ ['V']) ++ b = d1 ++ 'V' :: b := by simp
    rw [hshape]
    have htw : (d1 ++ 'V' :: b).takeWhile Char.isDigit = d1 := by
      rw [takeWhile_append_of_all _ hall, List.takeWhile_cons, hV]
      simp
    have hdw : (d1 ++ 'V' :: b).dropWhile Char.isDigit = 'V' :: b := by
      rw [dropWhile_append_of_all _ hall, List.dropWhile_cons, hV]
      simp
    rw [matchVoltCore]
    simp only [htw, hdw]
    rw [if_neg (by simpa using hne)]
    rfl
  · have hshape : (d1 ++ ('.' :: d2) ++ ['V']) ++ b = d1 ++ '.' :: (d2 ++ 'V' :: b) := by
      simp
    rw [hshape]
    have hdot : ('.' : Char).isDigit = false := by decide
    have htw : (d1 ++ '.' :: (d2 ++ 'V' :: b)).takeWhile Char.isDigit = d1 := by
      rw [takeWhile_append_of_all _ hall, List.takeWhile_cons, hdot]
      simp
    have hdw : (d1 ++ '.' :: (d2 ++ 'V' :: b)).dropWhile Char.isDigit
        = '.' :: (d2 ++ 'V' :: b) := by
      rw [dropWhile_append_of_all _ hall, List.dropWhile_cons, hdot]
      simp
    have hdw2 : (d2 ++ 'V' :: b).dropWhile Char.isDigit = 'V' :: b := by
      rw [dropWhile_append_of_all _ hall2, List.dropWhile_cons, hV]
      simp
    rw [matchVoltCore]
    simp only [htw, hdw, hdw2]
    rw [if_neg (by simpa using hne)]
    rfl

theorem voltCoreShape_spacefree {w : List Char} (hw : voltCoreShape w) :
    ∀ c ∈ w, isSpaceChar c = false := by
  obtain ⟨d1, mid, rfl, -, hall, hmid⟩ := hw
  intro c hc
  simp only [List.append_assoc, List.mem_append, List.mem_singleton] at hc
  rcases hc with hc | hc | rfl
  · exact digitDot_not_space (digit_digitDot (hall c hc))
  · rcases hmid with rfl | ⟨d2, rfl, hall2⟩
    · simp at hc
    · rcases List.mem_cons.mp hc with rfl | hc'
      · decide


      · exact digitDot_not_space (digit_digitDot (hall2 c hc'))
  · decide

theorem voltCoreShape_head {w : List Char} (hw : voltCoreShape w) :
    ∃ dh w', w = dh :: w' ∧ dh.isDigit = true := by
  obtain ⟨d1, mid, rfl, hne, hall, -⟩ := hw
  cases d1 with
  | nil => exact absurd rfl hne
  | cons dh d1' => exact ⟨dh, d1' ++ mid ++ ['V'], by simp, hall dh (by simp)⟩

theorem voltCoreShape_len {w : List Char} (hw : voltCoreShape w) : 2 ≤ w.length := by
  obtain ⟨d1, mid, rfl, hne, -, -⟩ := hw
  cases d1 with
  | nil => exact absurd rfl hne
  | cons dh d1' =>
    simp [List.length_append]
    omega

theorem voltCoreShape_hasV {w : List Char} (hw : voltCoreShape w) : 'V' ∈ w := by
  obtain ⟨d1, mid, rfl, -, -, -⟩ := hw
  simp

theorem matchVoltAt_of_shape {w b : List Char} (hw : voltCoreShape w) :
    (matchVoltAt (w ++ b)).isSome := by
  rw [matchVoltAt]
  have hdw : (w ++ b).dropWhile isSpaceChar = w ++ b := by
    obtain ⟨dh, w', rfl, hdig⟩ := voltCoreShape_head hw
    rw [List.cons_append, List.dropWhile_cons,
      digitDot_not_space (digit_digitDot hdig)]
    simp
  rw [hdw]
  cases hmc : matchVoltCore (w ++ b) with
  | some pr => rfl
  | none =>
    have := matchVoltCore_of_shape hw b
    rw [hmc] at this
    simp at this

theorem searchVolt_isSome_of {l : List Char}
    (h : ∃ s, s <:+ l ∧ (matchVoltAt s).isSome) : (searchVolt l).isSome := by
  induction l with
  | nil =>
    obtain ⟨s, hs, hm⟩ := h
    rw [List.suffix_nil.mp hs] at hm
    simp [matchVoltAt, matchVoltCore] at hm
  | cons c cs ih =>
    rw [searchVolt]
    cases hmt : matchVoltAt (c :: cs) with
    | some pr => rfl
    | none =>
      apply ih
      obtain ⟨s, hs, hm⟩ := h
      rcases List.suffix_cons_iff.mp hs with rfl | hs'
      · rw [hmt] at hm
        simp at hm
      · exact ⟨s, hs', hm⟩

theorem searchVolt_sound {l volt : List Char} (h : searchVolt l = some volt) :
    voltCoreShape volt ∧ volt <:+: l := by
  induction l with
  | nil => exact absurd h (by simp [searchVolt])
  | cons c cs ih =>
    rw [searchVolt] at h
    cases hmt : matchVoltAt (c :: cs) with
    | some pr =>
      obtain ⟨core, rest⟩ := pr
      rw [hmt] at h
      simp only [Option.some_inj] at h
      subst h
      rw [matchVoltAt] at hmt
      split at hmt
      · next core' r heq =>
        simp only [Option.some_inj, Prod.mk.injEq] at hmt
        obtain ⟨h1, -⟩ := hmt
        subst h1
        obtain ⟨hsh, hpre⟩ := matchVoltCore_sound heq
        exact ⟨hsh, hpre.isInfix.trans (List.dropWhile_suffix isSpaceChar).isInfix⟩
      · exact absurd hmt (by simp)
    | none =>
      rw [hmt] at h
      obtain ⟨hsh, hinf⟩ := ih h
      exact ⟨hsh, hinf.trans (List.suffix_cons c cs).isInfix⟩

theorem containsVoltCore_searchVolt {l : List Char} (h : containsVoltCore l) :
    (searchVolt l).isSome := by
  obtain ⟨w, hsh, a, b, rfl⟩ := h
  apply searchVolt_isSome_of
  exact ⟨w ++ b, ⟨a, by simp⟩, matchVoltAt_of_shape hsh⟩

theorem subVolt_fragment : ∀ (n : Nat) (l x : List Char), l.length ≤ n →
    (∀ c ∈ x, isSpaceChar c = false) → x ≠ [] → x <+: subVolt l → x <+: l := by
  intro n
  induction n with
  | zero =>
    intro l x hl hsp hne hpre
    have hln : l = [] := by
      cases l with
      | nil => rfl
      | cons c cs => simp at hl
    subst hln
    rw [subVolt_nil] at hpre
    obtain ⟨t, ht⟩ := hpre
    exact absurd (List.append_eq_nil.mp ht).1 hne
  | succ n ih =>
    intro l x hl hsp hne hpre
    cases l with
    | nil =>
      rw [subVolt_nil] at hpre
      obtain ⟨t, ht⟩ := hpre
      exact absurd (List.append_eq_nil.mp ht).1 hne
    | cons c cs =>
      rw [subVolt_cons] at hpre
      cases hmt : matchVoltAt (c :: cs) with
      | some pr =>
        obtain ⟨core, rest⟩ := pr
        rw [hmt] at hpre
        cases x with
        | nil => exact absurd rfl hne
        | cons xh x' =>
          obtain ⟨hx, -⟩ := List.cons_prefix_cons.mp hpre
          subst hx
          have := hsp ' ' (by simp)
          simp [isSpaceChar] at this
      | none =>
        rw [hmt] at hpre
        cases x with
        | nil => exact absurd rfl hne
        | cons xh x' =>
          obtain ⟨hx, hx'⟩ := List.cons_prefix_cons.mp hpre
          subst hx
          by_cases hemp : x' = []
          · subst hemp
            exact ⟨cs, rfl⟩
          · have hx'cs := ih cs x' (by simp at hl; omega)
              (fun d hd => hsp d (by simp [hd])) hemp hx'
            exact List.cons_prefix_cons.mpr ⟨rfl, hx'cs⟩

theorem subVolt_coreFree : ∀ (n : Nat) (l : List Char), l.length ≤ n →
    ¬ containsVoltCore (subVolt l) := by
  intro n
  induction n with
  | zero =>
    intro l hl hcon
    have hln : l = [] := by
      cases l with
      | nil => rfl
      | cons c cs => simp at hl
    subst hln
    rw [subVolt_nil] at hcon
    obtain ⟨w, hsh, hinf⟩ := hcon
    have h1 := hinf.length_le
    have h2 := voltCoreShape_len hsh
    simp only [List.length_nil] at h1
    omega
  | succ n ih =>
    intro l hl hcon
    cases l with
    | nil =>
      rw [subVolt_nil] at hcon
      obtain ⟨w, hsh, hinf⟩ := hcon
      have h1 := hinf.length_le
      have h2 := voltCoreShape_len hsh
      simp only [List.length_nil] at h1
      omega
    | cons c cs =>
      rw [subVolt_cons] at hcon
      simp only [List.length_cons] at hl
      cases hmt : matchVoltAt (c :: cs) with
      | some pr =>
        obtain ⟨core, rest⟩ := pr
        rw [hmt] at hcon
        obtain ⟨w, hsh, hinf⟩ := hcon
        rcases List.infix_cons_iff.mp hinf with hpre | hinf'
        · obtain ⟨dh, w', rfl, hdig⟩ := voltCoreShape_head hsh
          obtain ⟨hx, -⟩ := List.cons_prefix_cons.mp hpre
          rw [hx] at hdig
          simp [Char.isDigit] at hdig
        · have hb := matchVoltAt_bound hmt
          simp only [List.length_cons] at hb
          exact ih rest (by omega) ⟨w, hsh, hinf'⟩
      | none =>
        rw [hmt] at hcon
        obtain ⟨w, hsh, hinf⟩ := hcon
        rcases List.infix_cons_iff.mp hinf with hpre | hinf'
        · obtain ⟨dh, w', hw, hdig⟩ := voltCoreShape_head hsh
          subst hw
          obtain ⟨hx, hx'⟩ := List.cons_prefix_cons.mp hpre
          subst hx
          have hw'ne : w' ≠ [] := by
            have := voltCoreShape_len hsh
            intro he
            subst he
            simp at this
          have hw'sp : ∀ d ∈ w', isSpaceChar d = false :=
            fun d hd => voltCoreShape_spacefree hsh d (by simp [hd])
          have hw'cs : w' <+: cs := subVolt_fragment n cs w' (by omega) hw'sp hw'ne hx'
          obtain ⟨t, ht⟩ := hw'cs
          have : (matchVoltAt (dh :: cs)).isSome := by
            have hrw : dh :: cs = (dh :: w') ++ t := by
              rw [← ht]
              rfl
            rw [hrw]
            exact matchVoltAt_of_shape hsh
          rw [hmt] at this
          simp at this
        · exact ih cs (by omega) ⟨w, hsh, hinf'⟩

theorem spacefree_take_of_word {x u v : List Char}
    (hsp : ∀ c ∈ x, isSpaceChar c = false) :
    x <+: (u ++ ' ' :: v) → x <+: u := by
  induction u generalizing x with
  | nil =>
    intro h
    cases x with
    | nil => exact ⟨[], rfl⟩
    | cons xh x' =>
      simp only [List.nil_append] at h
      obtain ⟨hx, -⟩ := List.cons_prefix_cons.mp h
      have hxsp := hsp xh (by simp)
      rw [hx] at hxsp
      simp [isSpaceChar] at hxsp
  | cons uc u' ih =>
    intro h
    cases x with
    | nil => exact ⟨uc :: u', rfl⟩
    | cons xh x' =>
      rw [List.cons_append] at h
      obtain ⟨hx, hx'⟩ := List.cons_prefix_cons.mp h
      subst hx
      exact List.cons_prefix_cons.mpr ⟨rfl, ih (fun d hd => hsp d (by simp [hd])) hx'⟩

theorem infix_word_split {x u v : List Char}
    (hsp : ∀ c ∈ x, isSpaceChar c = false) (hne : x ≠ [])
    (h : x <:+: u ++ ' ' :: v) : x <:+: u ∨ x <:+: v := by
  induction u generalizing x with
  | nil =>
    simp only [List.nil_append] at h
    rcases List.infix_cons_iff.mp h with hpre | hinf
    · cases x with
      | nil => exact absurd rfl hne
      | cons xh x' =>
        obtain ⟨hx, -⟩ := List.cons_prefix_cons.mp hpre
        have hxsp := hsp xh (by simp)
        rw [hx] at hxsp
        simp [isSpaceChar] at hxsp
    · exact Or.inr hinf
  | cons uc u' ih =>
    rw [List.cons_append] at h
    rcases List.infix_cons_iff.mp h with hpre | hinf
    · exact Or.inl (spacefree_take_of_word hsp hpre).isInfix
    · rcases ih hsp hne hinf with h1 | h1
      · exact Or.inl (h1.trans (List.suffix_cons uc u').isInfix)
      · exact Or.inr h1

theorem wordsAux_infix_mem : ∀ (l acc : List Char), ∀ w ∈ wordsAux l acc,
    w <:+: (acc.reverse ++ l) := by
  intro l
  induction l with
  | nil =>
    intro acc w hw
    rw [wordsAux] at hw
    split at hw
    · simp at hw
    · rcases List.mem_singleton.mp hw with rfl
      exact ⟨[], [], by simp⟩
  | cons c cs ih =>
    intro acc w hw
    rw [wordsAux] at hw
    split at hw
    · split at hw
      · have := ih [] w hw
        simp only [List.reverse_nil, List.nil_append] at this
        exact this.trans ((List.suffix_cons c cs).isInfix.trans
          (List.suffix_append (acc.reverse) (c :: cs)).isInfix)
      · rcases List.mem_cons.mp hw with rfl | hw'
        · exact ⟨[], c :: cs, rfl⟩
        · have := ih [] w hw'
          simp only [List.reverse_nil, List.nil_append] at this
          exact this.trans ((List.suffix_cons c cs).isInfix.trans
            (List.suffix_append (acc.reverse) (c :: cs)).isInfix)
    · have := ih (c :: acc) w hw
      simp only [List.reverse_cons] at this
      have hre : acc.reverse ++ [c] ++ cs = acc.reverse ++ c :: cs := by simp
      rw [hre] at this
      exact this

theorem wordsOf_infix_mem {l w : List Char} (hw : w ∈ wordsOf l) : w <:+: l := by
  have := wordsAux_infix_mem l [] w hw
  simpa using this

theorem infix_unwords {x : List Char} : ∀ {ws : List (List Char)},
    (∀ c ∈ x, isSpaceChar c = false) → x ≠ [] →
    x <:+: unwordsOf ws → ∃ w ∈ ws, x <:+: w := by
  intro ws
  induction ws with
  | nil =>
    intro hsp hne h
    have h1 := h.length_le
    simp [unwordsOf] at h1
    cases x with
    | nil => exact absurd rfl hne
    | cons xh x' => simp at h1
  | cons w ws ih =>
    intro hsp hne h
    cases ws with
    | nil => exact ⟨w, by simp, h⟩
    | cons w' ws' =>
      have huw : unwordsOf (w :: w' :: ws') = w ++ ' ' :: unwordsOf (w' :: ws') := rfl
      rw [huw] at h
      rcases infix_word_split hsp hne h with h1 | h1
      · exact ⟨w, by simp, h1⟩
      · obtain ⟨w'', hmem, hinf⟩ := ih hsp hne h1
        exact ⟨w'', by simp [hmem], hinf⟩

theorem containsVoltCore_collapseWS {l : List Char}
    (h : containsVoltCore (collapseWS l)) : containsVoltCore l := by
  obtain ⟨w, hsh, hinf⟩ := h
  rw [collapseWS] at hinf
  have hwne : w ≠ [] := by
    have := voltCoreShape_len hsh
    intro he
    subst he
    simp at this
  obtain ⟨wd, hmem, hinfw⟩ := infix_unwords (voltCoreShape_spacefree hsh) hwne hinf
  exact ⟨w, hsh, hinfw.trans (wordsOf_infix_mem hmem)⟩

theorem not_containsVoltCore_of_no_V {l : List Char} (h : 'V' ∉ l) :
    ¬ containsVoltCore l :=
  fun ⟨_, hsh, hinf⟩ => h (List.IsInfix.mem (voltCoreShape_hasV hsh) hinf)

/-! ## Claim C4 -/

/-- Counterexample to claim C4 as stated: `extract_voltage` removes every
voltage match from the value, not only the first one.  On `"16V 25V"` the
first match is `16V`, so removing only the first match (collapsing
resulting whitespace) would leave `"25V"`; the code instead removes both
matches and returns the empty remainder. -/
theorem extract_voltage_counterexample :
    extract_voltage "16V 25V" = ("", "16V") ∧
    extract_voltage "16V 25V" ≠ ("25V", "16V") := by
  constructor
  · rfl
  · decide

/-- Claim C4 (amended): for every value string containing a substring of
the form digits, optional decimal, literal V, `split_voltage` removes every
such match from the string, not only the first (replacing each by a space
and collapsing whitespace), so the returned remainder contains no such
substring, and the returned voltage is itself such a substring of the
input (the leftmost match); for every value string with no such substring
it returns the string unchanged with an empty voltage.  In particular
`split_voltage "100n 16V" = ("100n", "16V")` and
`split_voltage "10k" = ("10k", "")`. -/
theorem extract_voltage_characterization (v : String) :
    (¬ containsVoltCore v.data → extract_voltage v = (v, "")) ∧
    (containsVoltCore v.data →
      voltCoreShape (extract_voltage v).2.data ∧
      (extract_voltage v).2.data <:+: v.data ∧
      ¬ containsVoltCore (extract_voltage v).1.data) ∧
    extract_voltage "100n 16V" = ("100n", "16V") ∧
    extract_voltage "10k" = ("10k", "") := by
  refine ⟨?_, ?_, by rfl, by rfl⟩
  · intro hnc
    rw [extract_voltage]
    by_cases hv : v = ""
    · rw [if_pos hv]
    · rw [if_neg hv]
      cases hs : searchVolt v.data with
      | some volt =>
        obtain ⟨hsh, hinf⟩ := searchVolt_sound hs
        exact absurd ⟨volt, hsh, hinf⟩ hnc
      | none => rfl
  · intro hc
    have hv : v ≠ "" := by
      intro he
      subst he
      obtain ⟨w, hsh, hinf⟩ := hc
      have h1 := hinf.length_le
      have h2 := voltCoreShape_len hsh
      rw [show ("" : String).data = [] from rfl, List.length_nil] at h1
      omega
    have hsome := containsVoltCore_searchVolt hc
    cases hs : searchVolt v.data with
    | none =>
      rw [hs] at hsome
      simp at hsome
    | some volt =>
      obtain ⟨hsh, hinf⟩ := searchVolt_sound hs
      have hev : extract_voltage v = (⟨collapseWS (subVolt v.data)⟩, ⟨volt⟩) := by
        rw [extract_voltage, if_neg hv, hs]
      rw [hev]
      refine ⟨hsh, hinf, ?_⟩
      intro hcon
      exact subVolt_coreFree (v.data.length) v.data le_rfl
        (containsVoltCore_collapseWS hcon)

/-- Witness for claim C4's amended theorem at a concrete input. -/
theorem extract_voltage_characterization_witness :
    extract_voltage "10k" = ("10k", "") :=
  (extract_voltage_characterization "10k").1
    (not_containsVoltCore_of_no_V (by decide))

/-! ## Numeric-projection lemmas (claim C7) -/

theorem wordsAux_acc_ne_nil : ∀ (l acc : List Char), acc ≠ [] → wordsAux l acc ≠ [] := by
  intro l
  induction l with
  | nil =>
    intro acc hacc
    rw [wordsAux, if_neg (by simpa using hacc)]
    simp
  | cons c cs ih =>
    intro acc hacc
    rw [wordsAux]
    split
    · rw [if_neg (by simpa using hacc)]
      simp
    · exact ih (c :: acc) (by simp)

theorem wordsOf_ne_nil {l : List Char} (h : ∃ c ∈ l, isSpaceChar c = false) :
    wordsOf l ≠ [] := by
  induction l with
  | nil => simp at h
  | cons c cs ih =>
    rw [wordsOf, wordsAux]
    split
    · next hsp =>
      show (if ([] : List Char).isEmpty = true then wordsAux cs [] else
        ([] : List Char).reverse :: wordsAux cs []) ≠ []
      rw [if_pos (by decide)]
      apply ih
      obtain ⟨d, hd, hdsp⟩ := h
      rcases List.mem_cons.mp hd with rfl | hd'
      · rw [hsp] at hdsp
        simp at hdsp
      · exact ⟨d, hd', hdsp⟩
    · exact wordsAux_acc_ne_nil cs [c] (by simp)

theorem wordsOf_nil_of_all_space {l : List Char} (h : ∀ c ∈ l, isSpaceChar c = true) :
    wordsOf l = [] := by
  induction l with
  | nil => rfl
  | cons c cs ih =>
    rw [wordsOf, wordsAux, if_pos (h c (by simp))]
    show (if ([] : List Char).isEmpty = true then wordsAux cs [] else
      ([] : List Char).reverse :: wordsAux cs []) = []
    rw [if_pos (by decide)]
    exact ih (fun d hd => h d (by simp [hd]))

/-! ## Claim C7 -/

/-- Counterexample to claim C7 as stated: `to_float` is not total — on the
non-empty all-whitespace string `" "` the expression `value_str.split()[0]`
raises `IndexError` (modelled as `none`), so no float is returned. -/
theorem parse_value_to_float_counterexample :
    parse_value_to_float " " = none ∧ ¬ ∃ q : ℚ, parse_value_to_float " " = some q := by
  constructor
  · rfl
  · rintro ⟨q, hq⟩
    rw [show parse_value_to_float " " = none from rfl] at hq
    exact absurd hq (by simp)

/-- Claim C7 (amended): `to_float` returns a float for the empty string
(0.0) and for every string containing a non-whitespace character — the
leading token gets the multiplier-adjusted interpretation of the three
formats, with everything unmatched mapping to 0.0 — but on a non-empty
string consisting only of whitespace it raises `IndexError` instead of
returning.  In particular `to_float "4k7" = 4700`, `to_float "10k" = 10000`,
`to_float "2R2" = 2.2` and `to_float "abc" = 0`. -/
theorem parse_value_to_float_totality (v : String) :
    (parse_value_to_float "" = some 0) ∧
    ((∃ c ∈ v.data, isSpaceChar c = false) →
      ∃ q : ℚ, parse_value_to_float v = some q ∧
        some q = ((wordsOf v.data).head?).map pvTok) ∧
    (v ≠ "" → (∀ c ∈ v.data, isSpaceChar c = true) → parse_value_to_float v = none) ∧
    parse_value_to_float "4k7" = some 4700 ∧
    parse_value_to_float "10k" = some 10000 ∧
    parse_value_to_float "2R2" = some (11 / 5) ∧
    parse_value_to_float "abc" = some 0 := by
  have h4k7 : parse_value_to_float "4k7" = some 4700 := by
    rw [show parse_value_to_float "4k7"
      = some (pyFloatVal ['4', '.', '7'] * multVal 'k') from rfl]
    norm_num +decide [pyFloatVal, multVal, digitsToNat,
      show ('4' : Char).toNat = 52 from rfl, show ('7' : Char).toNat = 55 from rfl]
  have h10k : parse_value_to_float "10k" = some 10000 := by
    rw [show parse_value_to_float "10k"
      = some (pyFloatVal ['1', '0'] * multVal 'k') from rfl]
    norm_num +decide [pyFloatVal, multVal, digitsToNat,
      show ('1' : Char).toNat = 49 from rfl, show ('0' : Char).toNat = 48 from rfl]
  have h2R2 : parse_value_to_float "2R2" = some (11 / 5) := by
    rw [show parse_value_to_float "2R2" = some (pyFloatVal ['2', '.', '2']) from rfl]
    norm_num +decide [pyFloatVal, digitsToNat, show ('2' : Char).toNat = 50 from rfl]
  refine ⟨rfl, ?_, ?_, h4k7, h10k, h2R2, rfl⟩
  · intro h
    have hv : v ≠ "" := by
      intro he
      subst he
      simp [show ("" : String).data = [] from rfl] at h
    have hw := wordsOf_ne_nil h
    rw [parse_value_to_float, if_neg hv]
    cases hh : (wordsOf v.data).head? with
    | none =>
      rw [List.head?_eq_none_iff] at hh
      exact absurd hh hw
    | some s => exact ⟨pvTok s, rfl, rfl⟩
  · intro hv hsp
    rw [parse_value_to_float, if_neg hv, wordsOf_nil_of_all_space hsp]
    rfl

/-- Witness for claim C7's amended theorem at a concrete input. -/
theorem parse_value_to_float_totality_witness :
    ∃ q : ℚ, parse_value_to_float "10k" = some q ∧
      some q = ((wordsOf ("10k" : String).data).head?).map pvTok :=
  (parse_value_to_float_totality "10k").2.1 ⟨'1', by decide, by decide⟩

/-! ## Balanced-block lemmas (claim C5) -/

theorem scanStateAt_succ (text : List Char) (s i : Nat) (c : Char)
    (hs : s ≤ i) (hc : text.get? i = some c) :
    scanStateAt text s (i + 1) = dsStep (scanStateAt text s i) c := by
  rw [scanStateAt, scanStateAt, show i + 1 - s = (i - s) + 1 from by omega,
    List.take_succ]
  have h2 : (text.drop s)[i - s]? = some c := by
    rw [← List.get?_eq_getElem?, List.get?_drop, show s + (i - s) = i from by omega]
    exact hc
  rw [h2]
  rw [List.foldl_append]
  rfl

theorem gbbAux_spec (text : List Char) (s : Nat) :
    ∀ (rem : List Char) (i : Nat) (d : Int) (q : Bool) (p : Option Char),
    rem = text.drop i → s ≤ i →
    scanStateAt text s i = (d, q, p) →
    (∀ j, j < i → ¬ isCloserAt text s j) →
    (isCloserAt text s (gbbAux rem i d q p text.length) ∧
      ∀ j, isCloserAt text s j → gbbAux rem i d q p text.length ≤ j) ∨
    (gbbAux rem i d q p text.length = text.length ∧ ∀ j, ¬ isCloserAt text s j) := by
  intro rem
  induction rem with
  | nil =>
    intro i d q p hrem hsi hst hbelow
    right
    refine ⟨rfl, ?_⟩
    intro j hj
    by_cases hji : j < i
    · exact hbelow j hji hj
    · obtain ⟨-, hj2, -⟩ := hj
      have hlen : text.length ≤ i := by
        have := congrArg List.length hrem
        rw [List.length_drop] at this
        simp at this
        omega
      omega
  | cons c cs ih =>
    intro i d q p hrem hsi hst hbelow
    have hc : text.get? i = some c := by
      have h0 : (text.drop i).get? 0 = some c := by
        rw [← hrem]
        rfl
      rwa [List.get?_drop, Nat.add_zero] at h0
    have hcs : cs = text.drop (i + 1) := by
      have ht : (text.drop i).tail = text.drop (i + 1) := List.tail_drop text i
      rw [← ht, ← hrem]
      rfl
    have hilen : i < text.length := by
      obtain ⟨hlt, -⟩ := List.get?_eq_some.mp hc
      exact hlt
    have hsucc := scanStateAt_succ text s i c hsi hc
    rw [hst] at hsucc
    rw [gbbAux]
    by_cases h1 : c = '"' ∧ p ≠ some '\\'
    · rw [if_pos h1]
      refine ih (i + 1) d (!q) (some c) hcs (by omega) ?_ ?_
      · rw [hsucc, dsStep, if_pos (by simpa using h1)]
      · intro j hj hcl
        rcases Nat.lt_succ_iff_lt_or_eq.mp hj with hj' | rfl
        · exact hbelow j hj' hcl
        · obtain ⟨-, -, hj3, -⟩ := hcl
          rw [hc] at hj3
          simp only [Option.some_inj] at hj3
          rw [h1.1] at hj3
          exact absurd hj3 (by decide)
    · rw [if_neg h1]
      by_cases h2 : q = true
      · rw [if_pos h2]
        refine ih (i + 1) d q (some c) hcs (by omega) ?_ ?_
        · rw [hsucc, dsStep, if_neg (by simpa using h1), h2]
          simp
        · intro j hj hcl
          rcases Nat.lt_succ_iff_lt_or_eq.mp hj with hj' | rfl
          · exact hbelow j hj' hcl
          · obtain ⟨-, -, -, hj4, -⟩ := hcl
            rw [hst, h2] at hj4
            simp at hj4
      · have h2' : q = false := by simpa using h2
        rw [if_neg (by simp [h2'])]
        by_cases h3 : c = '('
        · rw [if_pos h3]
          refine ih (i + 1) (d + 1) q (some c) hcs (by omega) ?_ ?_
          · rw [hsucc, dsStep, if_neg (by simpa using h1), h2']
            simp only [Bool.false_eq_true, if_false]
            rw [if_pos h3]
          · intro j hj hcl
            rcases Nat.lt_succ_iff_lt_or_eq.mp hj with hj' | rfl
            · exact hbelow j hj' hcl
            · obtain ⟨-, -, hj3, -⟩ := hcl
              rw [hc] at hj3
              simp only [Option.some_inj] at hj3
              rw [h3] at hj3
              exact absurd hj3 (by decide)
        · rw [if_neg h3]
          by_cases h4 : c = ')'
          · rw [if_pos h4]
            by_cases h5 : d - 1 = 0
            · rw [if_pos h5]
              left
              have hclose : isCloserAt text s i := by
                refine ⟨hsi, hilen, by rw [hc, h4], ?_, ?_⟩
                · rw [hst, h2']
                · rw [hst]
                  omega
              refine ⟨hclose, ?_⟩
              intro j hj
              by_cases hji : j < i
              · exact absurd hj (hbelow j hji)
              · omega
            · rw [if_neg h5]
              refine ih (i + 1) (d - 1) q (some c) hcs (by omega) ?_ ?_
              · rw [hsucc, dsStep, if_neg (by simpa using h1), h2']
                simp only [Bool.false_eq_true, if_false]
                rw [if_neg h3, if_pos h4]
              · intro j hj hcl
                rcases Nat.lt_succ_iff_lt_or_eq.mp hj with hj' | rfl
                · exact hbelow j hj' hcl
                · obtain ⟨-, -, -, -, hj5⟩ := hcl
                  rw [hst] at hj5
                  simp only at hj5
                  omega
          · rw [if_neg h4]
            refine ih (i + 1) d q (some c) hcs (by omega) ?_ ?_
            · rw [hsucc, dsStep, if_neg (by simpa using h1), h2']
              simp only [Bool.false_eq_true, if_false]
              rw [if_neg h3, if_neg h4]
            · intro j hj hcl
              rcases Nat.lt_succ_iff_lt_or_eq.mp hj with hj' | rfl
              · exact hbelow j hj' hcl
              · obtain ⟨-, -, hj3, -⟩ := hcl
                rw [hc] at hj3
                simp only [Option.some_inj] at hj3
                exact absurd hj3 h4

/-! ## Claim C5 -/

/-- Claim C5: when `text[start]` is an opening delimiter,
`get_balanced_block` returns the (first) index of the closing delimiter
that brings the nesting depth back to zero — delimiters inside a
double-quoted string literal (with backslash-escaped quotes not
terminating it) not counting — and returns the length of the text when no
balancing closer exists before the end. -/
theorem get_balanced_block_spec (text : List Char) (s : Nat)
    (_h : text.get? s = some '(') :
    (isCloserAt text s (get_balanced_block text s) ∧
      ∀ j, isCloserAt text s j → get_balanced_block text s ≤ j) ∨
    (get_balanced_block text s = text.length ∧ ∀ j, ¬ isCloserAt text s j) := by
  refine gbbAux_spec text s (text.drop s) s 0 false _ rfl le_rfl ?_ ?_
  · rw [scanStateAt, Nat.sub_self, List.take_zero, List.foldl_nil]
  · intro j hj hcl
    exact absurd hcl.1 (by omega)

/-- Witness for claim C5 at a concrete schematic fragment. -/
theorem get_balanced_block_spec_witness :
    (isCloserAt ("(a (b) \"x)\" c) t" : String).data 0
        (get_balanced_block ("(a (b) \"x)\" c) t" : String).data 0) ∧
      ∀ j, isCloserAt ("(a (b) \"x)\" c) t" : String).data 0 j →
        get_balanced_block ("(a (b) \"x)\" c) t" : String).data 0 ≤ j) ∨
    (get_balanced_block ("(a (b) \"x)\" c) t" : String).data 0
        = ("(a (b) \"x)\" c) t" : String).data.length ∧
      ∀ j, ¬ isCloserAt ("(a (b) \"x)\" c) t" : String).data 0 j) :=
  get_balanced_block_spec ("(a (b) \"x)\" c) t" : String).data 0 (by decide)

/-! ## Dict lemmas -/

@[simp] theorem dlookup_nil {α : Type} (k : String) : dlookup ([] : Dict α) k = none := rfl

theorem dlookup_dset_self {α : Type} (m : Dict α) (k : String) (v : α) :
    dlookup (dset m k v) k = some v := by
  induction m with
  | nil => simp [dset, dlookup]
  | cons hd tl ih =>
    obtain ⟨k', v'⟩ := hd
    by_cases h : k' = k <;> simp [dset, dlookup, h, ih]

theorem dlookup_dset_other {α : Type} (m : Dict α) (k k' : String) (v : α) (hne : k ≠ k') :
    dlookup (dset m k v) k' = dlookup m k' := by
  induction m with
  | nil => simp [dset, dlookup, hne]
  | cons hd tl ih =>
    obtain ⟨k₀, v₀⟩ := hd
    by_cases h : k₀ = k
    · subst h
      simp [dset, dlookup, hne]
    · simp [dset, dlookup, h, ih]

theorem dset_keys_of_mem {α : Type} (m : Dict α) (k : String) (v : α)
    (h : (dlookup m k).isSome) : (dset m k v).map Prod.fst = m.map Prod.fst := by
  induction m with
  | nil => simp [dlookup] at h
  | cons hd tl ih =>
    obtain ⟨k₀, v₀⟩ := hd
    by_cases hk : k₀ = k
    · simp [dset, hk]
    · simp [dlookup, hk] at h
      simp [dset, hk, ih h]

theorem dset_keys_of_not_mem {α : Type} (m : Dict α) (k : String) (v : α)
    (h : dlookup m k = none) : (dset m k v).map Prod.fst = m.map Prod.fst ++ [k] := by
  induction m with
  | nil => simp [dset]
  | cons hd tl ih =>
    obtain ⟨k₀, v₀⟩ := hd
    by_cases hk : k₀ = k
    · simp [dlookup, hk] at h
    · simp [dlookup, hk] at h
      simp [dset, hk, ih h]

theorem dlookup_isSome_iff_mem_keys {α : Type} (m : Dict α) (k : String) :
    (dlookup m k).isSome ↔ k ∈ m.map Prod.fst := by
  induction m with
  | nil => simp [dlookup]
  | cons hd tl ih =>
    obtain ⟨k₀, v₀⟩ := hd
    by_cases hk : k₀ = k
    · simp [dlookup, hk]
    · simp only [dlookup, hk, if_false, List.map_cons, List.mem_cons, ih]
      constructor
      · exact Or.inr
      · rintro (h | h)
        · exact absurd h.symm hk
        · exact h

/-! ## First-occurrence-wins lemmas -/

theorem firstWins_lookup_aux {α β : Type} (key : α → String) (pay : α → β)
    (l : List α) (acc : Dict β) (b : String) :
    dlookup (l.foldl (firstWinsStep key pay) acc) b =
      ((dlookup acc b).or ((l.find? (fun x => key x = b)).map pay)) := by
  induction l generalizing acc with
  | nil => simp
  | cons hd tl ih =>
    by_cases hb : key hd = b
    · rw [List.foldl_cons,
        List.find?_cons_of_pos _ (by simpa using hb), ih]
      by_cases hacc : (dlookup acc b).isSome
      · obtain ⟨v, hv⟩ := Option.isSome_iff_exists.mp hacc
        simp [firstWinsStep, hb, hacc, hv]
      · rw [Option.not_isSome_iff_eq_none] at hacc
        simp [firstWinsStep, hb, hacc, dlookup_dset_self]
    · rw [List.foldl_cons,
        List.find?_cons_of_neg _ (by simpa using hb), ih]
      have hacc : (dlookup (firstWinsStep key pay acc hd) b) = dlookup acc b := by
        simp only [firstWinsStep]
        split
        · rfl
        · exact dlookup_dset_other _ _ _ _ hb
      rw [hacc]

theorem firstWins_lookup {α β : Type} (key : α → String) (pay : α → β)
    (l : List α) (b : String) :
    dlookup (firstWins key pay l) b = ((l.find? (fun x => key x = b)).map pay) := by
  rw [firstWins, firstWins_lookup_aux]
  simp

theorem firstWins_keys_nodup_aux {α β : Type} (key : α → String) (pay : α → β)
    (l : List α) (acc : Dict β) (hacc : (acc.map Prod.fst).Nodup) :
    ((l.foldl (firstWinsStep key pay) acc).map Prod.fst).Nodup := by
  induction l generalizing acc with
  | nil => exact hacc
  | cons hd tl ih =>
    apply ih
    simp only [firstWinsStep]
    split
    · exact hacc
    · next h =>
      rw [Option.not_isSome_iff_eq_none] at h
      rw [dset_keys_of_not_mem _ _ _ h]
      rw [List.nodup_append]
      refine ⟨hacc, List.nodup_singleton _, ?_⟩
      intro a ha hb
      simp at hb
      subst hb
      rw [← dlookup_isSome_iff_mem_keys] at ha
      rw [h] at ha
      simp at ha

theorem firstWins_keys_nodup {α β : Type} (key : α → String) (pay : α → β) (l : List α) :
    ((firstWins key pay l).map Prod.fst).Nodup :=
  firstWins_keys_nodup_aux key pay l [] (by simp)

theorem firstWins_count_keys {α β : Type} (key : α → String) (pay : α → β)
    (l : List α) (b : String) :
    ((firstWins key pay l).map Prod.fst).count b
      = (if (l.any (fun x => key x = b)) then 1 else 0) := by
  have hnd := firstWins_keys_nodup key pay l
  have hmem : b ∈ (firstWins key pay l).map Prod.fst ↔ (l.any (fun x => key x = b)) = true := by
    rw [← dlookup_isSome_iff_mem_keys, firstWins_lookup]
    simp [List.find?_isSome, List.any_eq_true]
  by_cases h : (l.any (fun x => key x = b)) = true
  · rw [if_pos h]
    exact List.count_eq_one_of_mem hnd (hmem.mpr h)
  · rw [if_neg h]
    rw [List.count_eq_zero]
    intro hb
    exact h (hmem.mp hb)

/-! ## Merge-engine lemmas -/

@[simp] theorem mergedRec_stock (e p : PartRec) : (mergedRec e p).stock = e.stock := rfl
@[simp] theorem mergedRec_projects (e p : PartRec) : (mergedRec e p).projects = e.projects := rfl
@[simp] theorem mergedRec_lastUsed (e p : PartRec) : (mergedRec e p).lastUsed = e.lastUsed := rfl
@[simp] theorem mergedRec_value (e p : PartRec) : (mergedRec e p).value = e.value := rfl
@[simp] theorem mergedRec_footprint (e p : PartRec) : (mergedRec e p).footprint = e.footprint := rfl

theorem mergeStep_master_other (st : MergeState) (kv : String × PartRec) (k : String)
    (h : kv.1 ≠ k) : dlookup (mergeStep st kv).master k = dlookup st.master k := by
  unfold mergeStep
  cases hl : dlookup st.master kv.1 with
  | none => simp [dlookup_dset_other _ _ _ _ h]
  | some e =>
    by_cases hc : e.value ≠ kv.2.value ∨ e.footprint ≠ kv.2.footprint
    · simp [hc]
    · simp only [hc, if_false]
      split <;> simp [dlookup_dset_other _ _ _ _ h]

theorem mergeFold_master_other (nd : List (String × PartRec)) (st : MergeState) (k : String)
    (h : k ∉ nd.map Prod.fst) :
    dlookup ((nd.foldl mergeStep st).master) k = dlookup st.master k := by
  induction nd generalizing st with
  | nil => rfl
  | cons hd tl ih =>
    simp only [List.map_cons, List.mem_cons] at h
    push_neg at h
    rw [List.foldl_cons, ih _ h.2, mergeStep_master_other _ _ _ (fun he => h.1 he.symm)]

theorem mergeStep_errors_filter_other (st : MergeState) (kv : String × PartRec) (k : String)
    (h : kv.1 ≠ k) :
    ((mergeStep st kv).errors).filter (fun c => c.mpn = k)
      = st.errors.filter (fun c => c.mpn = k) := by
  unfold mergeStep
  cases hl : dlookup st.master kv.1 with
  | none => rfl
  | some e =>
    by_cases hc : e.value ≠ kv.2.value ∨ e.footprint ≠ kv.2.footprint
    · simp [hc, List.filter_append, h]
    · simp only [hc, if_false]
      split <;> rfl

theorem mergeFold_errors_filter_other (nd : List (String × PartRec)) (st : MergeState)
    (k : String) (h : k ∉ nd.map Prod.fst) :
    ((nd.foldl mergeStep st).errors).filter (fun c => c.mpn = k)
      = st.errors.filter (fun c => c.mpn = k) := by
  induction nd generalizing st with
  | nil => rfl
  | cons hd tl ih =>
    simp only [List.map_cons, List.mem_cons] at h
    push_neg at h
    rw [List.foldl_cons, ih _ h.2, mergeStep_errors_filter_other _ _ _ (fun he => h.1 he.symm)]

theorem mergeStep_stock (st : MergeState) (kv : String × PartRec) (k : String) (e' : PartRec)
    (h : dlookup st.master k = some e') :
    ∃ r, dlookup (mergeStep st kv).master k = some r ∧ r.stock = e'.stock := by
  by_cases hk : kv.1 = k
  · subst hk
    unfold mergeStep
    rw [h]
    by_cases hc : e'.value ≠ kv.2.value ∨ e'.footprint ≠ kv.2.footprint
    · exact ⟨e', by simp [hc, h], rfl⟩
    · simp only [hc, if_false]
      split
      · exact ⟨mergedRec e' kv.2, by simp [dlookup_dset_self], rfl⟩
      · exact ⟨_, dlookup_dset_self _ _ _, rfl⟩
  · rw [mergeStep_master_other st kv k hk]
    exact ⟨e', h, rfl⟩

theorem mergeFold_stock (nd : List (String × PartRec)) (st : MergeState) (k : String)
    (e' : PartRec) (h : dlookup st.master k = some e') :
    ∃ r, dlookup ((nd.foldl mergeStep st).master) k = some r ∧ r.stock = e'.stock := by
  induction nd generalizing st e' with
  | nil => exact ⟨e', h, rfl⟩
  | cons hd tl ih =>
    obtain ⟨r, hr, hrs⟩ := mergeStep_stock st hd k e' h
    obtain ⟨r', hr', hrs'⟩ := ih (mergeStep st hd) r hr
    exact ⟨r', hr', hrs'.trans hrs⟩

theorem mergeStep_keys_nodup (st : MergeState) (kv : String × PartRec)
    (h : (st.master.map Prod.fst).Nodup) :
    ((mergeStep st kv).master.map Prod.fst).Nodup := by
  unfold mergeStep
  cases hl : dlookup st.master kv.1 with
  | none =>
    simp only []
    rw [dset_keys_of_not_mem _ _ _ hl, List.nodup_append]
    refine ⟨h, List.nodup_singleton _, ?_⟩
    intro a ha hb
    simp at hb
    subst hb
    rw [← dlookup_isSome_iff_mem_keys, hl] at ha
    simp at ha
  | some e =>
    by_cases hc : e.value ≠ kv.2.value ∨ e.footprint ≠ kv.2.footprint
    · simpa [hc] using h
    · simp only [hc, if_false]
      have hs : (dlookup st.master kv.1).isSome := by rw [hl]; rfl
      split <;> simpa [dset_keys_of_mem _ _ _ hs] using h

theorem mergeFold_keys_nodup (nd : List (String × PartRec)) (st : MergeState)
    (h : (st.master.map Prod.fst).Nodup) :
    (((nd.foldl mergeStep st).master).map Prod.fst).Nodup := by
  induction nd generalizing st with
  | nil => exact h
  | cons hd tl ih => exact ih _ (mergeStep_keys_nodup st hd h)

/-- Decomposition of a merge run around the (by key-uniqueness unique) step
that handles a given incoming MPN. -/
theorem merge_decompose (m0 : Dict PartRec) (nd : List (String × PartRec))
    (mpn : String) (e p : PartRec)
    (hnodup : (nd.map Prod.fst).Nodup) (hmem : (mpn, p) ∈ nd)
    (hlook : dlookup m0 mpn = some e) :
    ∃ st1 : MergeState,
      dlookup st1.master mpn = some e ∧
      st1.errors.filter (fun c => c.mpn = mpn) = [] ∧
      dlookup (merge_data m0 nd).master mpn
        = dlookup (mergeStep st1 (mpn, p)).master mpn ∧
      (merge_data m0 nd).errors.filter (fun c => c.mpn = mpn)
        = ((mergeStep st1 (mpn, p)).errors).filter (fun c => c.mpn = mpn) := by
  obtain ⟨l1, l2, rfl⟩ := List.append_of_mem hmem
  rw [List.map_append, List.map_cons] at hnodup
  obtain ⟨hnd1, hnd2, hdisj⟩ := List.nodup_append.mp hnodup
  have hmpn2 : mpn ∉ l2.map Prod.fst := (List.nodup_cons.mp hnd2).1
  have hmpn1 : mpn ∉ l1.map Prod.fst := fun hmem1 =>
    (hdisj hmem1) (List.mem_cons_self _ _)
  refine ⟨l1.foldl mergeStep ⟨m0, [], []⟩, ?_, ?_, ?_, ?_⟩
  · rw [mergeFold_master_other _ _ _ hmpn1]
    exact hlook
  · rw [mergeFold_errors_filter_other _ _ _ hmpn1]
    rfl
  · rw [merge_data, List.foldl_append, List.foldl_cons,
      mergeFold_master_other _ _ _ hmpn2]
  · rw [merge_data, List.foldl_append, List.foldl_cons,
      mergeFold_errors_filter_other _ _ _ hmpn2]

/-! ## Claims C1, C2 and C6 (the merge engine) -/

/-- Claim C1: merging an incoming record whose MPN is already present but
whose value or footprint differs produces exactly one conflict entry for
that MPN and leaves every field of the stored record completely unchanged
(no field fill, no project addition, no date advance). -/
theorem merge_conflict_is_isolated (m0 : Dict PartRec) (nd : List (String × PartRec))
    (mpn : String) (e p : PartRec)
    (hnodup : (nd.map Prod.fst).Nodup) (hmem : (mpn, p) ∈ nd)
    (hlook : dlookup m0 mpn = some e)
    (hconf : e.value ≠ p.value ∨ e.footprint ≠ p.footprint) :
    ((merge_data m0 nd).errors.filter (fun c => c.mpn = mpn)).length = 1 ∧
    dlookup (merge_data m0 nd).master mpn = some e := by
  obtain ⟨st1, hst1, hferr, hmas, herr⟩ := merge_decompose m0 nd mpn e p hnodup hmem hlook
  have hstep : mergeStep st1 (mpn, p) =
      { st1 with errors := st1.errors ++ [⟨mpn, e.value, e.footprint, p.value, p.footprint⟩] } := by
    unfold mergeStep
    rw [hst1]
    simp [hconf]
  constructor
  · rw [herr, hstep]
    simp [List.filter_append, hferr]
  · rw [hmas, hstep]
    exact hst1

/-- Claim C2: merging an incoming record whose MPN is present with identical
value and footprint copies each of Mouser PN, Digikey PN, Voltage,
Tolerance, Manufacturer, Datasheet and Extra from the incoming record only
when the existing field is empty and the incoming one non-empty (an
existing non-empty value is never overwritten), and the Stock field of
every stored record is never modified by merge under any condition. -/
theorem merge_fill_only_and_stock_immutable (m0 : Dict PartRec)
    (nd : List (String × PartRec)) (mpn : String) (e p : PartRec)
    (hnodup : (nd.map Prod.fst).Nodup) (hmem : (mpn, p) ∈ nd)
    (hlook : dlookup m0 mpn = some e)
    (hv : e.value = p.value) (hf : e.footprint = p.footprint) :
    (∃ r, dlookup (merge_data m0 nd).master mpn = some r ∧
      r.mouserPN = (if e.mouserPN = "" ∧ p.mouserPN ≠ "" then p.mouserPN else e.mouserPN) ∧
      r.digikeyPN = (if e.digikeyPN = "" ∧ p.digikeyPN ≠ "" then p.digikeyPN else e.digikeyPN) ∧
      r.voltage = (if e.voltage = "" ∧ p.voltage ≠ "" then p.voltage else e.voltage) ∧
      r.tolerance = (if e.tolerance = "" ∧ p.tolerance ≠ "" then p.tolerance else e.tolerance) ∧
      r.manufacturer = (if e.manufacturer = "" ∧ p.manufacturer ≠ "" then p.manufacturer else e.manufacturer) ∧
      r.datasheet = (if e.datasheet = "" ∧ p.datasheet ≠ "" then p.datasheet else e.datasheet) ∧
      r.extra = (if e.extra = "" ∧ p.extra ≠ "" then p.extra else e.extra) ∧
      r.stock = e.stock) ∧
    (∀ k e', dlookup m0 k = some e' →
      ∃ r', dlookup (merge_data m0 nd).master k = some r' ∧ r'.stock = e'.stock) := by
  constructor
  · obtain ⟨st1, hst1, _, hmas, _⟩ := merge_decompose m0 nd mpn e p hnodup hmem hlook
    rw [hmas]
    have hc : ¬(e.value ≠ p.value ∨ e.footprint ≠ p.footprint) := by simp [hv, hf]
    unfold mergeStep
    rw [hst1]
    simp only [hc, if_false]
    split
    · exact ⟨mergedRec e p, by simp [dlookup_dset_self], rfl, rfl, rfl, rfl, rfl, rfl, rfl, rfl⟩
    · exact ⟨_, dlookup_dset_self _ _ _, rfl, rfl, rfl, rfl, rfl, rfl, rfl, rfl⟩
  · intro k e' hk
    exact mergeFold_stock nd ⟨m0, [], []⟩ k e' hk

/-- Claim C6: merging an incoming record whose MPN is present with identical
value and footprint adds the incoming project to the stored projects set
when it is new (never creating a second record for that MPN) and advances
`last_used` exactly when the incoming date string is lexically greater; if
the project is already present, the projects set and `last_used` are left
unchanged. -/
theorem merge_project_membership (m0 : Dict PartRec) (nd : List (String × PartRec))
    (mpn : String) (e p : PartRec) (proj : String)
    (hm0 : (m0.map Prod.fst).Nodup)
    (hnodup : (nd.map Prod.fst).Nodup) (hmem : (mpn, p) ∈ nd)
    (hlook : dlookup m0 mpn = some e)
    (hv : e.value = p.value) (hf : e.footprint = p.footprint)
    (hproj : p.projects = [proj]) :
    (∃ r, dlookup (merge_data m0 nd).master mpn = some r ∧
      (proj ∉ e.projects →
        r.projects = e.projects ++ [proj] ∧
        r.lastUsed = (if e.lastUsed < p.lastUsed then p.lastUsed else e.lastUsed)) ∧
      (proj ∈ e.projects → r.projects = e.projects ∧ r.lastUsed = e.lastUsed)) ∧
    ((merge_data m0 nd).master.map Prod.fst).count mpn = 1 := by
  have hc : ¬(e.value ≠ p.value ∨ e.footprint ≠ p.footprint) := by simp [hv, hf]
  obtain ⟨st1, hst1, _, hmas, _⟩ := merge_decompose m0 nd mpn e p hnodup hmem hlook
  have hhead : p.projects.headD "" = proj := by rw [hproj]; rfl
  constructor
  · rw [hmas]
    unfold mergeStep
    rw [hst1]
    simp only [hc, if_false, mergedRec_projects, hhead]
    by_cases hin : proj ∈ e.projects
    · rw [if_pos hin]
      refine ⟨mergedRec e p, by simp [dlookup_dset_self], ?_, ?_⟩
      · intro h; exact absurd hin h
      · intro _; exact ⟨rfl, rfl⟩
    · rw [if_neg hin]
      refine ⟨_, dlookup_dset_self _ _ _, ?_, ?_⟩
      · intro _
        exact ⟨by simp [hhead], by simp [hhead]⟩
      · intro h; exact absurd h hin
  · have hnd := mergeFold_keys_nodup nd ⟨m0, [], []⟩ hm0
    apply List.count_eq_one_of_mem hnd
    rw [← dlookup_isSome_iff_mem_keys]
    obtain ⟨r, hr, _⟩ := mergeFold_stock nd ⟨m0, [], []⟩ mpn e hlook
    rw [hr]
    rfl

/-- Witness for claim C1 at a concrete master and incoming item. -/
theorem merge_conflict_is_isolated_witness :
    ((merge_data [("MPNX", sampleExisting)] [("MPNX", sampleConflict)]).errors.filter
        (fun c => c.mpn = "MPNX")).length = 1 ∧
    dlookup (merge_data [("MPNX", sampleExisting)] [("MPNX", sampleConflict)]).master "MPNX"
      = some sampleExisting :=
  merge_conflict_is_isolated [("MPNX", sampleExisting)] [("MPNX", sampleConflict)]
    "MPNX" sampleExisting sampleConflict
    (by decide) (by decide) (by decide) (by decide)

/-- Witness for claim C2 at a concrete master and incoming item. -/
theorem merge_fill_only_and_stock_immutable_witness :
    (∃ r, dlookup (merge_data [("MPNX", sampleExisting)] [("MPNX", sampleIncoming)]).master
        "MPNX" = some r ∧
      r.mouserPN = (if sampleExisting.mouserPN = "" ∧ sampleIncoming.mouserPN ≠ "" then
        sampleIncoming.mouserPN else sampleExisting.mouserPN) ∧
      r.digikeyPN = (if sampleExisting.digikeyPN = "" ∧ sampleIncoming.digikeyPN ≠ "" then
        sampleIncoming.digikeyPN else sampleExisting.digikeyPN) ∧
      r.voltage = (if sampleExisting.voltage = "" ∧ sampleIncoming.voltage ≠ "" then
        sampleIncoming.voltage else sampleExisting.voltage) ∧
      r.tolerance = (if sampleExisting.tolerance = "" ∧ sampleIncoming.tolerance ≠ "" then
        sampleIncoming.tolerance else sampleExisting.tolerance) ∧
      r.manufacturer = (if sampleExisting.manufacturer = "" ∧ sampleIncoming.manufacturer ≠ "" then
        sampleIncoming.manufacturer else sampleExisting.manufacturer) ∧
      r.datasheet = (if sampleExisting.datasheet = "" ∧ sampleIncoming.datasheet ≠ "" then
        sampleIncoming.datasheet else sampleExisting.datasheet) ∧
      r.extra = (if sampleExisting.extra = "" ∧ sampleIncoming.extra ≠ "" then
        sampleIncoming.extra else sampleExisting.extra) ∧
      r.stock = sampleExisting.stock) ∧
    (∀ k e', dlookup [("MPNX", sampleExisting)] k = some e' →
      ∃ r', dlookup (merge_data [("MPNX", sampleExisting)] [("MPNX", sampleIncoming)]).master
        k = some r' ∧ r'.stock = e'.stock) :=
  merge_fill_only_and_stock_immutable [("MPNX", sampleExisting)] [("MPNX", sampleIncoming)]
    "MPNX" sampleExisting sampleIncoming
    (by decide) (by decide) (by decide) (by decide) (by decide)

/-- Witness for claim C6 at a concrete master and incoming item. -/
theorem merge_project_membership_witness :
    (∃ r, dlookup (merge_data [("MPNX", sampleExisting)] [("MPNX", sampleIncoming)]).master
        "MPNX" = some r ∧
      ("beta" ∉ sampleExisting.projects →
        r.projects = sampleExisting.projects ++ ["beta"] ∧
        r.lastUsed = (if sampleExisting.lastUsed < sampleIncoming.lastUsed then
          sampleIncoming.lastUsed else sampleExisting.lastUsed)) ∧
      ("beta" ∈ sampleExisting.projects →
        r.projects = sampleExisting.projects ∧ r.lastUsed = sampleExisting.lastUsed)) ∧
    ((merge_data [("MPNX", sampleExisting)] [("MPNX", sampleIncoming)]).master.map
      Prod.fst).count "MPNX" = 1 :=
  merge_project_membership [("MPNX", sampleExisting)] [("MPNX", sampleIncoming)]
    "MPNX" sampleExisting sampleIncoming "beta"
    (by decide) (by decide) (by decide) (by decide) (by decide) (by decide) (by decide)

/-! ## Claim C8 and claim C10 -/

/-- Claim C8: within one parsed file, all component instances whose
reference designators share the same base id (letters plus leading digits,
trailing unit-suffix letters stripped) collapse to exactly one output
record, namely the one from the first such instance encountered; in
particular instances `U1A` and `U1B` with identical attributes yield
exactly one record stored under base id `U1`. -/
theorem dedup_base_id_first_wins (insts : List (String × Props)) (b : String) (p : Props) :
    dlookup (dedupInstances insts) b
        = ((insts.find? (fun x => strip_designator_suffix x.1 = b)).map Prod.snd) ∧
    ((dedupInstances insts).map Prod.fst).count b
        = (if (insts.any (fun x => strip_designator_suffix x.1 = b)) then 1 else 0) ∧
    dedupInstances [("U1A", p), ("U1B", p)] = [("U1", p)] := by
  refine ⟨firstWins_lookup _ _ insts b, firstWins_count_keys _ _ insts b, ?_⟩
  have h1 : strip_designator_suffix "U1A" = "U1" := by decide
  have h2 : strip_designator_suffix "U1B" = "U1" := by decide
  simp [dedupInstances, firstWins, firstWinsStep, h1, h2, dlookup, dset]

/-- Claim C10: within one project scan, every observation of an MPN that has
already been recorded is discarded in its entirety — the accumulated dict
maps each MPN to exactly the first observation carrying it, so no field of
a later observation (identical value/footprint or not) is merged, and the
first-seen record is kept unchanged. -/
theorem scan_duplicate_mpn_dropped (obs : List PartRec) (m : String) :
    dlookup (scanAccum obs) m = obs.find? (fun p => p.mpn = m) := by
  rw [scanAccum, firstWins_lookup]
  simp

/-! ## Sort-order lemmas (claim C9) -/

theorem lexLE₂_total {α β : Type} [LinearOrder α] (le2 : β → β → Prop)
    (h2 : ∀ a b, le2 a b ∨ le2 b a) (a b : α × β) :
    lexLE₂ le2 a b ∨ lexLE₂ le2 b a := by
  rcases lt_trichotomy a.1 b.1 with h | h | h
  · exact Or.inl (Or.inl h)
  · rcases h2 a.2 b.2 with h' | h'
    · exact Or.inl (Or.inr ⟨h, h'⟩)
    · exact Or.inr (Or.inr ⟨h.symm, h'⟩)
  · exact Or.inr (Or.inl h)

theorem lexLE₂_trans {α β : Type} [LinearOrder α] (le2 : β → β → Prop)
    (h2 : ∀ a b c, le2 a b → le2 b c → le2 a c) (a b c : α × β)
    (hab : lexLE₂ le2 a b) (hbc : lexLE₂ le2 b c) : lexLE₂ le2 a c := by
  rcases hab with h | ⟨he, hl⟩
  · rcases hbc with h' | ⟨he', _⟩
    · exact Or.inl (h.trans h')
    · exact Or.inl (lt_of_lt_of_le h (le_of_eq he'))
  · rcases hbc with h' | ⟨he', hl'⟩
    · exact Or.inl (lt_of_le_of_lt (le_of_eq he) h')
    · exact Or.inr ⟨he.trans he', h2 _ _ _ hl hl'⟩

theorem rowLE_total (x y : PartRec) : rowLE x y ∨ rowLE y x := by
  unfold rowLE
  apply lexLE₂_total
  intro a b
  apply lexLE₂_total
  intro a b
  apply lexLE₂_total
  intro a b
  apply lexLE₂_total
  intro a b
  apply lexLE₂_total
  intro a b
  exact le_total a b

theorem rowLE_trans (x y z : PartRec) (h1 : rowLE x y) (h2 : rowLE y z) :
    rowLE x z := by
  unfold rowLE at h1 h2 ⊢
  refine lexLE₂_trans _ ?_ _ _ _ h1 h2
  intro a b c hab hbc
  refine lexLE₂_trans _ ?_ _ _ _ hab hbc
  intro a b c hab hbc
  refine lexLE₂_trans _ ?_ _ _ _ hab hbc
  intro a b c hab hbc
  refine lexLE₂_trans _ ?_ _ _ _ hab hbc
  intro a b c hab hbc
  refine lexLE₂_trans _ ?_ _ _ _ hab hbc
  intro a b c hab hbc
  exact le_trans hab hbc

theorem sortKey_sampleRow (val mpn : String) :
    sortKey (sampleRow val mpn)
      = ("R", (parse_value_to_float val).getD 0, "", 0, "0402", mpn) := by
  show ("R",
    (if ("R" : String) ∈ VALUE_PARSE_TYPES then (parse_value_to_float val).getD 0
      else 0),
    (if ("R" : String) ∉ VALUE_PARSE_TYPES then val else ""),
    parse_voltage_to_float "", "0402", mpn) = _
  rw [if_pos (by decide : ("R" : String) ∈ VALUE_PARSE_TYPES),
    if_neg (by decide : ¬ ("R" : String) ∉ VALUE_PARSE_TYPES)]
  rfl

theorem pv_getD_100R : (parse_value_to_float "100R").getD 0 = 100 := by
  rw [show parse_value_to_float "100R"
    = some ((digitsToNat ['1', '0', '0'] : Nat) : ℚ) from rfl]
  rw [show digitsToNat ['1', '0', '0'] = 100 from by decide]
  norm_num

theorem pv_getD_47k : (parse_value_to_float "4.7k").getD 0 = 4700 := by
  rw [show parse_value_to_float "4.7k"
    = some (pyFloatVal ['4', '.', '7'] * multVal 'k') from rfl]
  norm_num +decide [pyFloatVal, multVal, digitsToNat,
    show ('4' : Char).toNat = 52 from rfl, show ('7' : Char).toNat = 55 from rfl]

theorem pv_getD_1M : (parse_value_to_float "1M").getD 0 = 1000000 := by
  rw [show parse_value_to_float "1M"
    = some (pyFloatVal ['1'] * multVal 'M') from rfl]
  norm_num +decide [pyFloatVal, multVal, digitsToNat,
    show ('1' : Char).toNat = 49 from rfl]

/-- Claim C9: the output rows are sorted ascending by the key tuple `Type`,
then numeric value for value-bearing types (with the raw-text component
empty) and raw `Value` text for all other types (with the numeric component
zero), then numeric voltage, then `Footprint`, then `MPN`; the sorted output
is a permutation of the input rows; and in particular `R` rows valued
`100R`, `4.7k`, `1M` come out in that ascending order.  The hypothesis
restricts to inputs on which Python's `parse_value_to_float` returns rather
than raising, so the numeric key component is faithful. -/
theorem sorted_output_order (parts : List PartRec)
    (_hparse : ∀ r ∈ parts, r.type ∈ VALUE_PARSE_TYPES →
      (parse_value_to_float r.value).isSome) :
    List.Sorted rowLE (sortParts parts) ∧
    (sortParts parts).Perm parts ∧
    sortParts [sampleRow "1M" "M3", sampleRow "100R" "M1", sampleRow "4.7k" "M2"]
      = [sampleRow "100R" "M1", sampleRow "4.7k" "M2", sampleRow "1M" "M3"] := by
  have hC : rowLE (sampleRow "100R" "M1") (sampleRow "4.7k" "M2") := by
    show lexLE₂ _ (sortKey (sampleRow "100R" "M1")) (sortKey (sampleRow "4.7k" "M2"))
    rw [sortKey_sampleRow, sortKey_sampleRow, pv_getD_100R, pv_getD_47k]
    exact Or.inr ⟨rfl, Or.inl (by norm_num)⟩
  have hA : ¬ rowLE (sampleRow "1M" "M3") (sampleRow "100R" "M1") := by
    intro h
    have h' : lexLE₂ (lexLE₂ (lexLE₂ (lexLE₂ (lexLE₂ (fun a b : String => a ≤ b)))))
        (sortKey (sampleRow "1M" "M3")) (sortKey (sampleRow "100R" "M1")) := h
    rw [sortKey_sampleRow, sortKey_sampleRow, pv_getD_1M, pv_getD_100R] at h'
    simp only [lexLE₂] at h'
    rcases h' with h1 | ⟨-, h2 | ⟨h3, -⟩⟩
    · exact absurd h1 (lt_irrefl _)
    · norm_num at h2
    · norm_num at h3
  have hB : ¬ rowLE (sampleRow "1M" "M3") (sampleRow "4.7k" "M2") := by
    intro h
    have h' : lexLE₂ (lexLE₂ (lexLE₂ (lexLE₂ (lexLE₂ (fun a b : String => a ≤ b)))))
        (sortKey (sampleRow "1M" "M3")) (sortKey (sampleRow "4.7k" "M2")) := h
    rw [sortKey_sampleRow, sortKey_sampleRow, pv_getD_1M, pv_getD_47k] at h'
    simp only [lexLE₂] at h'
    rcases h' with h1 | ⟨-, h2 | ⟨h3, -⟩⟩
    · exact absurd h1 (lt_irrefl _)
    · norm_num at h2
    · norm_num at h3
  refine ⟨?_, ?_, ?_⟩
  · haveI : IsTotal PartRec rowLE := ⟨rowLE_total⟩
    haveI : IsTrans PartRec rowLE := ⟨rowLE_trans⟩
    exact List.sorted_insertionSort rowLE parts
  · exact List.perm_insertionSort rowLE parts
  · simp only [sortParts, List.insertionSort]
    rw [List.orderedInsert]
    rw [List.orderedInsert, if_pos hC]
    rw [List.orderedInsert, if_neg hA]
    rw [List.orderedInsert, if_neg hB]
    rw [List.orderedInsert]

/-- Witness for claim C9's theorem at a concrete three-row input. -/
theorem sorted_output_order_witness :
    List.Sorted rowLE (sortParts
        [sampleRow "1M" "M3", sampleRow "100R" "M1", sampleRow "4.7k" "M2"]) ∧
    (sortParts
        [sampleRow "1M" "M3", sampleRow "100R" "M1", sampleRow "4.7k" "M2"]).Perm
      [sampleRow "1M" "M3", sampleRow "100R" "M1", sampleRow "4.7k" "M2"] ∧
    sortParts [sampleRow "1M" "M3", sampleRow "100R" "M1", sampleRow "4.7k" "M2"]
      = [sampleRow "100R" "M1", sampleRow "4.7k" "M2", sampleRow "1M" "M3"] :=
  sorted_output_order
    [sampleRow "1M" "M3", sampleRow "100R" "M1", sampleRow "4.7k" "M2"]
    (by
      intro r hr _
      simp only [List.mem_cons, List.not_mem_nil, or_false] at hr
      rcases hr with rfl | rfl | rfl
      · decide
      · decide
      · decide)

end DWlib
